import Mathlib

/-!
Verification development for the Mechanica local-dictionary server.

The definitions below are a shallow embedding of the two source files:
`server.js` (schema discovery, env override, prepared SQL statements and the
data-access helpers `fetchWords` / `fetchDetailByWord`) and the frontend
script (the `formatMeaning` math-extraction pipeline and the audio playback
plan built in the play-button handler).  Strings are modelled as Lean
`String` / `List Char`; SQLite `NULL` as `Option`; JS falsiness of strings as
emptiness.  Host behaviour that the code delegates to the environment
(`String.prototype.localeCompare`, the `marked` markdown renderer) is kept as
an explicit parameter or a small documented model.
-/

set_option maxRecDepth 8192

/-- ASCII case folding: SQLite's built-in `LIKE` and the `NOCASE` collation
fold only the ASCII letters `A`-`Z`. -/
def asciiFold (c : Char) : Char :=
  if 'A' ≤ c ∧ c ≤ 'Z' then Char.ofNat (c.toNat + 32) else c

/-- Number of occurrences of `pat` (as a contiguous sublist) in `l`,
counting one per start position. -/
def countOcc (pat : List Char) : List Char → Nat
  | [] => if pat.isEmpty then 1 else 0
  | c :: l => (if pat.isPrefixOf (c :: l) then 1 else 0) + countOcc pat l

/-- Tokens of an SQLite `LIKE` pattern after resolving the `ESCAPE` character. -/
inductive LikeTok : Type
  | any : LikeTok
  | one : LikeTok
  | lit : Char → LikeTok
deriving DecidableEq, Repr

/-- Parse an SQLite `LIKE` pattern with escape character `\` (as in
`LIKE ? ESCAPE '\'` in `server.js`): `\x` is the literal `x`, `%` matches any
run, `_` matches one character, anything else is literal. -/
def parseLike : List Char → List LikeTok
  | [] => []
  | c :: rest =>
    if c = '\\' then
      match rest with
      | [] => [.lit '\\']
      | d :: rest' => .lit d :: parseLike rest'
    else if c = '%' then .any :: parseLike rest
    else if c = '_' then .one :: parseLike rest
    else .lit c :: parseLike rest

/-- SQLite `LIKE` matching (default ASCII-case-insensitive comparison).
`%` matches any run of characters: the remaining pattern must match some
suffix of the text (`List.tails` enumerates all suffixes). -/
def matchLike : List LikeTok → List Char → Bool
  | [], w => w.isEmpty
  | .any :: p, w => w.tails.any (fun s => matchLike p s)
  | .one :: _, [] => false
  | .one :: p, _ :: w => matchLike p w
  | .lit _ :: _, [] => false
  | .lit a :: p, c :: w => (asciiFold a = asciiFold c) && matchLike p w

/-- `escapeLike` from `server.js`:
`String(s).replace(/([%_\\])/g, '\\$1')`, at character-list level. -/
def escLikeChars : List Char → List Char
  | [] => []
  | c :: rest =>
    if c = '%' ∨ c = '_' ∨ c = '\\' then '\\' :: c :: escLikeChars rest
    else c :: escLikeChars rest

/-- `escapeLike` from `server.js` on strings. -/
def escapeLike (s : String) : String := String.mk (escLikeChars s.data)

/-- The filter applied by `stmtSearchWords`:
`"w" LIKE '%' || escapeLike(search) || '%' ESCAPE '\'`. -/
def likeFilter (q w : String) : Bool :=
  matchLike (parseLike ("%" ++ escapeLike q ++ "%").data) w.data

/-- `q` occurs in `w` as a substring up to ASCII case. -/
def ciSubstr (q w : String) : Prop :=
  (q.data.map asciiFold) <:+: (w.data.map asciiFold)

instance (q w : String) : Decidable (ciSubstr q w) := by
  unfold ciSubstr; infer_instance

/-- Insertion step of the sort model for JS `Array.prototype.sort(cmp)`. -/
def insertCmp {α : Type} (cmp : α → α → Ordering) (x : α) : List α → List α
  | [] => [x]
  | y :: ys => if cmp x y = Ordering.gt then y :: insertCmp cmp x ys else x :: y :: ys

/-- Model of JS `Array.prototype.sort(cmp)` (a stable comparison sort). -/
def sortByCmp {α : Type} (cmp : α → α → Ordering) : List α → List α
  | [] => []
  | x :: xs => insertCmp cmp x (sortByCmp cmp xs)

/-- Three-way comparison of characters by code point. -/
def charCmpN (a b : Char) : Ordering :=
  if a.toNat < b.toNat then .lt else if b.toNat < a.toNat then .gt else .eq

/-- Lexicographic comparison of character lists by code point. -/
def lexCmp : List Char → List Char → Ordering
  | [], [] => .eq
  | [], _ :: _ => .lt
  | _ :: _, [] => .gt
  | a :: as, b :: bs =>
    match charCmpN a b with
    | .eq => lexCmp as bs
    | o => o

/-- Ordinal (code-point lexicographic) string comparison, the "C locale"
instance of `localeCompare`. -/
def ordinalCompare (a b : String) : Ordering := lexCmp a.data b.data

/-- `s.toLowerCase()` as used in the sort comparator (ASCII letters). -/
def jsToLowerCase (s : String) : String := String.mk (s.data.map asciiFold)

/-- The comparator `(a, b) => a.toLowerCase().localeCompare(b.toLowerCase())`
from `fetchWords`, parameterised by the host's `localeCompare`. -/
def cmpLower (lc : String → String → Ordering) (a b : String) : Ordering :=
  lc (jsToLowerCase a) (jsToLowerCase b)

/-- The non-strict order induced by a JS comparator: `a` need not come after `b`. -/
def cmpLe (lc : String → String → Ordering) (a b : String) : Prop :=
  cmpLower lc a b ≠ Ordering.gt

instance (lc : String → String → Ordering) (a b : String) :
    Decidable (cmpLe lc a b) := by unfold cmpLe; infer_instance

/-- SQLite `NOCASE` collation comparison (ASCII-folded code-point order). -/
def nocaseCmp (a b : String) : Ordering :=
  ordinalCompare (String.mk (a.data.map asciiFold)) (String.mk (b.data.map asciiFold))

/-- `stmtListWords`: non-null terms, `ORDER BY w COLLATE NOCASE ASC LIMIT 10000`. -/
def stmtListWords (rows : List (Option String)) : List String :=
  (sortByCmp nocaseCmp (rows.filterMap id)).take 10000

/-- `stmtSearchWords`: terms matching the escaped `LIKE` pattern,
`ORDER BY w COLLATE NOCASE ASC LIMIT 10000`. -/
def stmtSearchWords (rows : List (Option String)) (q : String) : List String :=
  (sortByCmp nocaseCmp ((rows.filterMap id).filter (fun w => likeFilter q w))).take 10000

/-- `fetchWords` from `server.js`: run the prepared statement, drop falsy
values (`filter(Boolean)`), then re-sort with the lowercased `localeCompare`
comparator.  `lc` is the host's `localeCompare`. -/
def fetchWords (lc : String → String → Ordering) (rows : List (Option String))
    (search : String) : List String :=
  if search ≠ "" then
    sortByCmp (cmpLower lc) ((stmtSearchWords rows search).filter (fun w => w ≠ ""))
  else
    sortByCmp (cmpLower lc) ((stmtListWords rows).filter (fun w => w ≠ ""))

/-- JavaScript `x || null` on an optional string: `null`, `undefined` and the
empty string all map to `null`. -/
def jsOrNull : Option String → Option String
  | some s => if s = "" then none else some s
  | none => none

/-- A row of the backing table as selected by `stmtDetailByWord` /
`stmtDetailsAll`: the first four columns, any of which may be `NULL`. -/
structure DbRow : Type where
  w : Option String
  m : Option String
  a : Option String
  wiki : Option String
deriving DecidableEq, Repr

/-- The detail record assembled by `fetchDetailByWord` in `server.js`. -/
structure TermRecord : Type where
  word : Option String
  meaning : Option String
  audioUrl : Option String
  wikiUrl : Option String
deriving DecidableEq, Repr

/-- `stmtDetailByWord`: `WHERE "w" = ? LIMIT 1` — SQL equality is
case-sensitive (BINARY) and never matches `NULL`; `LIMIT 1`/`.get()` keeps
the first matching row. -/
def stmtDetailByWord (rows : List DbRow) (word : String) : Option DbRow :=
  (rows.filter (fun r => r.w = some word)).head?

/-- `fetchDetailByWord` from `server.js`. -/
def fetchDetailByWord (rows : List DbRow) (word : String) : Option TermRecord :=
  (stmtDetailByWord rows word).map (fun row =>
    { word := row.w, meaning := row.m, audioUrl := row.a, wikiUrl := jsOrNull row.wiki })

/-- The resolved table/column binding (`META` in `server.js`). -/
structure SchemaBinding : Type where
  table : String
  wordCol : String
  meaningCol : String
  audioCol : String
  wikiCol : Option String
deriving DecidableEq, Repr

/-- `discoverSchema` from `server.js`: pick the first user table in name
order (`name NOT LIKE 'sqlite_%' ORDER BY name LIMIT 1`), require at least 3
columns, and bind the first four columns in declared order; the fourth is
optional (`wikiCol || null`).  A store is a list of (table name, columns in
declared order); a thrown `Error` is modelled as `Except.error`. -/
def discoverSchema (tables : List (String × List String)) :
    Except String SchemaBinding :=
  let userTables := tables.filter
    (fun t => ¬ matchLike (parseLike "sqlite_%".data) t.1.data)
  match (sortByCmp (fun a b => ordinalCompare a.1 b.1) userTables).head? with
  | none => .error "No user table found in database"
  | some (name, cols) =>
    match cols with
    | c0 :: c1 :: c2 :: rest =>
      .ok { table := name, wordCol := c0, meaningCol := c1, audioCol := c2,
            wikiCol := jsOrNull rest.head? }
    | _ => .error "table must have at least 3 columns"

/-- JS truthiness of an environment variable: it is set and non-empty. -/
def envTruthy : Option String → Bool
  | some s => s ≠ ""
  | none => false

/-- The env-override step in `server.js`:
`if (ENV_TABLE && ENV_WORD && ENV_MEANING && ENV_AUDIO) META = {...}` —
replaces the discovered binding only when all four of table/word/meaning/audio
are set and non-empty, otherwise keeps the discovered binding unchanged. -/
def envOverride (meta : SchemaBinding)
    (eT eW eM eA eWiki : Option String) : SchemaBinding :=
  match eT, eW, eM, eA with
  | some t, some w, some m, some a =>
    if t ≠ "" ∧ w ≠ "" ∧ m ≠ "" ∧ a ≠ "" then
      { table := t, wordCol := w, meaningCol := m, audioCol := a,
        wikiCol := jsOrNull eWiki }
    else meta
  | _, _, _, _ => meta

/-- Startup schema resolution in `server.js`: `META = discoverSchema()` then
the env override; a discovery error aborts the process (`Except.error`). -/
def startupSchema (tables : List (String × List String))
    (eT eW eM eA eWiki : Option String) : Except String SchemaBinding :=
  (discoverSchema tables).map (fun meta => envOverride meta eT eW eM eA eWiki)

/-- Model of one host collation for `String.prototype.localeCompare`
(ICU/CLDR root order restricted to the letters we use): a Latin letter with
an acute accent sorts by its base letter first and by the accent only as a
tie-break, so `"é" < "z"`, unlike ordinal code-point order. -/
def baseChar (c : Char) : Char := if c = 'é' then 'e' else c

/-- Accent rank used as the secondary key of `accentCompare`. -/
def accentRank (c : Char) : Nat := if c = 'é' then 1 else 0

/-- Lexicographic comparison of accent ranks. -/
def accentRanksCmp : List Nat → List Nat → Ordering
  | [], [] => .eq
  | [], _ :: _ => .lt
  | _ :: _, [] => .gt
  | a :: as, b :: bs =>
    if a < b then .lt else if b < a then .gt else accentRanksCmp as bs

/-- The accent-aware collation model (a legal `localeCompare` behaviour). -/
def accentCompare (a b : String) : Ordering :=
  match ordinalCompare (String.mk (a.data.map baseChar)) (String.mk (b.data.map baseChar)) with
  | .eq => accentRanksCmp (a.data.map accentRank) (b.data.map accentRank)
  | o => o

/-- Whitespace as matched by JS `\s` / removed by `String.prototype.trim`
(restricted to the ASCII whitespace characters). -/
def isJsWs (c : Char) : Bool :=
  c = ' ' || c = '\t' || c = '\n' || c = '\r' || c = '\x0b' || c = '\x0c'

/-- JS `String.prototype.trim` on character lists. -/
def jsTrim (l : List Char) : List Char :=
  ((l.dropWhile isJsWs).reverse.dropWhile isJsWs).reverse

/-- Split a character list at every whitespace character.  Composed with the
`filter(url => url.length > 0)` of the play-button handler this computes the
same tokens as JS `split(/\s+/)` (runs of whitespace produce empty pieces,
which the filter then removes). -/
def splitAtWs : List Char → List (List Char)
  | [] => [[]]
  | c :: cs =>
    match splitAtWs cs with
    | [] => [[]]
    | t :: ts => if isJsWs c then [] :: t :: ts else (c :: t) :: ts

/-- The playback plan built in the play-button handler:
`String(audioUrl).trim().split(/\s+/).filter(url => url.length > 0)`.
The button (and hence any playback) only exists when `audioUrl` is truthy,
so a missing or empty value yields the empty plan. -/
def buildAudioPlan : Option String → List String
  | none => []
  | some s =>
    if s = "" then []
    else ((splitAtWs (jsTrim s.data)).filter (fun t => t ≠ [])).map String.mk

/-- Decimal digit characters. -/
def digitChar : Nat → Char
  | 0 => '0' | 1 => '1' | 2 => '2' | 3 => '3' | 4 => '4'
  | 5 => '5' | 6 => '6' | 7 => '7' | 8 => '8' | _ => '9'

/-- Fuel-driven decimal numeral writer (most significant digit first). -/
def natDigitsGo : Nat → Nat → List Char
  | 0, _ => []
  | fuel + 1, n =>
    if n < 10 then [digitChar n]
    else natDigitsGo fuel (n / 10) ++ [digitChar (n % 10)]

/-- The decimal numeral of `n`, as produced by JS `${i}` interpolation. -/
def natDigits (n : Nat) : List Char := natDigitsGo (n + 1) n

/-- Value of a decimal numeral (left fold), inverse of `natDigits`. -/
def digitsVal (l : List Char) : Nat :=
  l.foldl (fun acc c => acc * 10 + (c.toNat - 48)) 0

/-- The fixed prefix of every math placeholder token. -/
def pfxTok : List Char := "<!--knt-math-p".data

/-- The placeholder `<!--knt-math-p${i}-->` from `formatMeaning`. -/
def token (i : Nat) : List Char := pfxTok ++ natDigits i ++ "-->".data

/-- One entry of the `replacements` array of `formatMeaning`: the array index
(`id`), the trimmed formula text, and the display-mode flag. -/
structure MathSeg : Type where
  id : Nat
  formula : String
  isDisplay : Bool
deriving DecidableEq, Repr

/-- Split at every occurrence of `$$`, scanning left to right (the pieces
between consecutive non-overlapping `$$` separators). -/
def ddSplit : List Char → List (List Char)
  | [] => [[]]
  | '$' :: '$' :: rest => [] :: ddSplit rest
  | c :: rest =>
    match ddSplit rest with
    | [] => [[c]]
    | t :: ts => (c :: t) :: ts

/-- Reassembly step of the display pass `content.replace(/\$\$([\s\S]*?)\$\$/g, ...)`:
consecutive `$$` separators pair up lazily, the text between a pair becomes a
display segment replaced by its placeholder token, and a final unmatched `$$`
stays literal. -/
def ddAssemble (ctr : Nat) : List (List Char) → List Char × List MathSeg
  | [] => ([], [])
  | [p] => (p, [])
  | [p, q] => (p ++ '$' :: '$' :: q, [])
  | p :: q :: r :: ps =>
    let d := ddAssemble (ctr + 1) (r :: ps)
    (p ++ token ctr ++ d.1, ⟨ctr, String.mk (jsTrim q), true⟩ :: d.2)

/-- Split at every single `$`. -/
def sSplit : List Char → List (List Char)
  | [] => [[]]
  | '$' :: rest => [] :: sSplit rest
  | c :: rest =>
    match sSplit rest with
    | [] => [[c]]
    | t :: ts => (c :: t) :: ts

/-- Inverse of `sSplit`: interleave the pieces with single `$` characters. -/
def sUnsplit : List (List Char) → List Char
  | [] => []
  | [p] => p
  | p :: ps => p ++ '$' :: sUnsplit ps

/-- Inverse of `ddSplit`: interleave the pieces with `$$` separators. -/
def ddUnsplit : List (List Char) → List Char
  | [] => []
  | [p] => p
  | p :: ps => p ++ '$' :: '$' :: ddUnsplit ps

/-- Reassembly step of the inline pass `content.replace(/\$([^\$]+?)\$/g, ...)`:
a `$` pairs with the next `$` when the text between them is non-empty (the
regex needs at least one non-`$` character); an empty span (`$$`) leaves the
first `$` literal and rescans from the second; a lone trailing `$` stays
literal. -/
def sAssemble (ctr : Nat) : List (List Char) → List Char × List MathSeg
  | [] => ([], [])
  | [p] => (p, [])
  | [p, q] => (p ++ '$' :: q, [])
  | p :: q :: r :: ps =>
    if q = [] then
      let d := sAssemble ctr (q :: r :: ps)
      (p ++ '$' :: d.1, d.2)
    else
      let d := sAssemble (ctr + 1) (r :: ps)
      (p ++ token ctr ++ d.1, ⟨ctr, String.mk (jsTrim q), false⟩ :: d.2)

/-- The two extraction passes of `formatMeaning`: stash display math, then
stash inline math, continuing the shared counter.  Returns the
placeholder-bearing text and the `replacements` array in index order. -/
def mathExtract (s : String) : List Char × List MathSeg :=
  let d := ddAssemble 0 (ddSplit s.data)
  let e := sAssemble d.2.length (sSplit d.1)
  (e.1, d.2 ++ e.2)

/-- `escapeAttribute` from the frontend script, per character. -/
def escAttrChar (c : Char) : List Char :=
  if c = '"' then "&quot;".data
  else if c = '\'' then "&#39;".data
  else if c = '`' then "&#96;".data
  else if c = '<' then "&lt;".data
  else if c = '>' then "&gt;".data
  else [c]

/-- `escapeAttribute` from the frontend script. -/
def escAttr (s : String) : String := String.mk ((s.data.map escAttrChar).flatten)

/-- The restored placeholder element for one `replacements` entry. -/
def spanHtml (seg : MathSeg) : String :=
  "<span data-math-placeholder=\"" ++ escAttr seg.formula ++
    "\" data-math-mode=\"" ++ (if seg.isDisplay then "display" else "inline") ++
    "\"></span>"

/-- JS `String.prototype.replace` with a string pattern: replace the first
occurrence of `pat` (if any) by `rep`. -/
def replaceFirst (l pat rep : List Char) : List Char :=
  match l with
  | [] => if pat.isEmpty then rep else []
  | c :: l' =>
    if pat.isPrefixOf (c :: l') then rep ++ (c :: l').drop pat.length
    else c :: replaceFirst l' pat rep

/-- Model of `marked.parse(content, { breaks: true })` on a single-line
paragraph: wrap in a paragraph element; HTML-comment-shaped placeholder
tokens pass through a markdown renderer unaltered. -/
def markedModelParagraph (s : String) : String := "<p>" ++ s ++ "</p>\n"

/-- The structured result of `formatMeaning`: markdown-converted body and the
extracted math segments. -/
structure RenderPlan : Type where
  htmlBody : String
  mathSegments : List MathSeg
deriving DecidableEq, Repr

/-- The fixed body returned for a null or empty definition. -/
def noDefBody : String := "<em style=\"color:#9ca3af\">(بدون تعریف)</em>"

/-- `formatMeaning` from the frontend script, parameterised by the markdown
transform `md` (the external `marked.parse` with `breaks: true`):
extract display then inline math into placeholder tokens, convert the
placeholder-bearing text to HTML, then replace the first occurrence of each
token by its inert placeholder element. -/
def formatMeaning (md : String → String) : Option String → RenderPlan
  | none => ⟨noDefBody, []⟩
  | some s =>
    if s = "" then ⟨noDefBody, []⟩
    else
      let (c2, segs) := mathExtract s
      let html := (md (String.mk c2)).data
      let restored := segs.foldl
        (fun h seg => replaceFirst h (token seg.id) (spanHtml seg).data) html
      ⟨String.mk restored, segs⟩

/-- A JS sort comparator is a consistent comparison: "after" is asymmetric
and "not after" is transitive (what ECMAScript requires of a comparator for
`Array.prototype.sort` to behave deterministically). -/
def ConsistentCmp (lc : String → String → Ordering) : Prop :=
  (∀ a b, lc a b = .gt → lc b a ≠ .gt) ∧
  (∀ a b c, lc a b ≠ .gt → lc b c ≠ .gt → lc a c ≠ .gt)

-- ===================== THEOREM ZONE =====================

theorem charCmpN_eq_lt {a b : Char} : charCmpN a b = .lt ↔ a.toNat < b.toNat := by
  unfold charCmpN; split_ifs <;> simp_all <;> omega

theorem charCmpN_eq_gt {a b : Char} : charCmpN a b = .gt ↔ b.toNat < a.toNat := by
  unfold charCmpN; split_ifs <;> simp_all <;> omega

theorem charCmpN_eq_eq {a b : Char} : charCmpN a b = .eq ↔ a.toNat = b.toNat := by
  unfold charCmpN; split_ifs <;> simp_all <;> omega

theorem lexCmp_nil_left (b : List Char) : lexCmp [] b ≠ .gt := by
  cases b <;> simp [lexCmp]

theorem lexCmp_cons_nil (a : Char) (as : List Char) : lexCmp (a :: as) [] = .gt := rfl

theorem lexCmp_gt_asymm : ∀ a b : List Char, lexCmp a b = .gt → lexCmp b a ≠ .gt := by
  intro a
  induction a with
  | nil => intro b h; exact absurd h (lexCmp_nil_left b)
  | cons x as ih =>
    intro b h
    cases b with
    | nil => simp [lexCmp]
    | cons y bs =>
      simp only [lexCmp] at h ⊢
      rcases hxy : charCmpN x y with hc | hc | hc <;> rw [hxy] at h
      · simp at h
      · have : charCmpN y x = .eq := by
          rw [charCmpN_eq_eq] at hxy ⊢; omega
        rw [this]; exact ih bs h
      · have : charCmpN y x = .lt := by
          rw [charCmpN_eq_gt] at hxy; rw [charCmpN_eq_lt]; omega
        simp [this]

theorem lexCmp_ngt_trans :
    ∀ a b c : List Char, lexCmp a b ≠ .gt → lexCmp b c ≠ .gt → lexCmp a c ≠ .gt := by
  intro a
  induction a with
  | nil => intro b c _ _; exact lexCmp_nil_left c
  | cons x as ih =>
    intro b c h1 h2
    cases b with
    | nil => exact absurd (lexCmp_cons_nil x as) h1
    | cons y bs =>
      cases c with
      | nil => exact absurd (lexCmp_cons_nil y bs) h2
      | cons z cs =>
        simp only [lexCmp] at h1 h2 ⊢
        rcases hxy : charCmpN x y with _ | _ | _ <;> rw [hxy] at h1 <;>
          rcases hyz : charCmpN y z with _ | _ | _ <;> rw [hyz] at h2
        · have hxz : charCmpN x z = .lt := by
            rw [charCmpN_eq_lt] at hxy hyz ⊢; omega
          simp [hxz]
        · have hxz : charCmpN x z = .lt := by
            rw [charCmpN_eq_lt] at hxy ⊢; rw [charCmpN_eq_eq] at hyz; omega
          simp [hxz]
        · simp at h2
        · have hxz : charCmpN x z = .lt := by
            rw [charCmpN_eq_eq] at hxy; rw [charCmpN_eq_lt] at hyz ⊢; omega
          simp [hxz]
        · have hxz : charCmpN x z = .eq := by
            rw [charCmpN_eq_eq] at hxy hyz ⊢; omega
          rw [hxz]; exact ih bs cs h1 h2
        · simp at h2
        · simp at h1
        · simp at h1
        · simp at h1

theorem ordinalCompare_consistent : ConsistentCmp ordinalCompare :=
  ⟨fun a b h => lexCmp_gt_asymm a.data b.data h,
   fun a b c h1 h2 => lexCmp_ngt_trans a.data b.data c.data h1 h2⟩

theorem insertCmp_perm {α : Type} (cmp : α → α → Ordering) (x : α) :
    ∀ l : List α, (insertCmp cmp x l).Perm (x :: l) := by
  intro l
  induction l with
  | nil => simp [insertCmp]
  | cons y ys ih =>
    simp only [insertCmp]
    split_ifs with h
    · exact (ih.cons y).trans (List.Perm.swap x y ys)
    · exact List.Perm.refl _

theorem sortByCmp_perm {α : Type} (cmp : α → α → Ordering) :
    ∀ l : List α, (sortByCmp cmp l).Perm l := by
  intro l
  induction l with
  | nil => exact List.Perm.refl _
  | cons x xs ih => exact (insertCmp_perm cmp x (sortByCmp cmp xs)).trans (ih.cons x)

theorem mem_sortByCmp {α : Type} (cmp : α → α → Ordering) (l : List α) (a : α) :
    a ∈ sortByCmp cmp l ↔ a ∈ l :=
  (sortByCmp_perm cmp l).mem_iff

theorem length_sortByCmp {α : Type} (cmp : α → α → Ordering) (l : List α) :
    (sortByCmp cmp l).length = l.length :=
  (sortByCmp_perm cmp l).length_eq

theorem insertCmp_pairwise {α : Type} (cmp : α → α → Ordering)
    (hasym : ∀ a b, cmp a b = .gt → cmp b a ≠ .gt)
    (htrans : ∀ a b c, cmp a b ≠ .gt → cmp b c ≠ .gt → cmp a c ≠ .gt)
    (x : α) : ∀ l : List α, l.Pairwise (fun a b => cmp a b ≠ .gt) →
      (insertCmp cmp x l).Pairwise (fun a b => cmp a b ≠ .gt) := by
  intro l
  induction l with
  | nil => intro _; simp [insertCmp]
  | cons y ys ih =>
    intro hp
    rw [List.pairwise_cons] at hp
    simp only [insertCmp]
    split_ifs with h
    · rw [List.pairwise_cons]
      refine ⟨fun z hz => ?_, ih hp.2⟩
      rcases List.mem_cons.mp ((insertCmp_perm cmp x ys).mem_iff.mp hz) with hz' | hz'
      · exact hz' ▸ hasym x y h
      · exact hp.1 z hz'
    · rw [List.pairwise_cons]
      refine ⟨fun z hz => ?_, List.pairwise_cons.mpr hp⟩
      rcases List.mem_cons.mp hz with hz' | hz'
      · exact hz' ▸ h
      · exact htrans x y z h (hp.1 z hz')

theorem sortByCmp_pairwise {α : Type} (cmp : α → α → Ordering)
    (hasym : ∀ a b, cmp a b = .gt → cmp b a ≠ .gt)
    (htrans : ∀ a b c, cmp a b ≠ .gt → cmp b c ≠ .gt → cmp a c ≠ .gt)
    (l : List α) : (sortByCmp cmp l).Pairwise (fun a b => cmp a b ≠ .gt) := by
  induction l with
  | nil => simp [sortByCmp]
  | cons x xs ih => exact insertCmp_pairwise cmp hasym htrans x _ ih

theorem parseLike_nil : parseLike [] = [] := by rw [parseLike.eq_def]

theorem parseLike_any_cons (rest : List Char) :
    parseLike ('%' :: rest) = .any :: parseLike rest := by
  rw [parseLike.eq_def]; simp

theorem parseLike_esc_cons (c : Char) (rest : List Char) :
    parseLike ('\\' :: c :: rest) = .lit c :: parseLike rest := by
  rw [parseLike.eq_def]; simp

theorem parseLike_lit_cons (c : Char) (rest : List Char)
    (h1 : c ≠ '\\') (h2 : c ≠ '%') (h3 : c ≠ '_') :
    parseLike (c :: rest) = .lit c :: parseLike rest := by
  rw [parseLike.eq_def]; simp [h1, h2, h3]

theorem parseLike_escLike (l : List Char) (r : List Char) :
    parseLike (escLikeChars l ++ r) = l.map LikeTok.lit ++ parseLike r := by
  induction l with
  | nil => simp [escLikeChars]
  | cons c cl ih =>
    by_cases hc : c = '%' ∨ c = '_' ∨ c = '\\'
    · simp only [escLikeChars, if_pos hc, List.cons_append, List.map_cons]
      rw [parseLike_esc_cons, ih]
    · push_neg at hc
      simp only [escLikeChars, if_neg (by tauto : ¬ (c = '%' ∨ c = '_' ∨ c = '\\')),
        List.cons_append, List.map_cons]
      rw [parseLike_lit_cons c _ hc.2.2 hc.1 hc.2.1, ih]

theorem matchLike_single_any (w : List Char) : matchLike [.any] w = true := by
  simp only [matchLike, List.any_eq_true]
  exact ⟨[], (List.mem_tails [] w).mpr List.nil_suffix, by simp [matchLike]⟩

theorem matchLike_lits_any (q : List Char) :
    ∀ w : List Char, matchLike (q.map LikeTok.lit ++ [.any]) w = true ↔
      q.map asciiFold <+: w.map asciiFold := by
  induction q with
  | nil => intro w; simp [matchLike_single_any]
  | cons a q' ih =>
    intro w
    cases w with
    | nil => simp [matchLike]
    | cons c w' =>
      simp only [List.map_cons, List.cons_append, matchLike, Bool.and_eq_true,
        decide_eq_true_eq, List.cons_prefix_cons, List.append_eq]
      rw [ih w']

theorem infix_iff_exists_drop {l₁ l₂ : List Char} :
    l₁ <:+: l₂ ↔ ∃ n, l₁ <+: l₂.drop n := by
  constructor
  · rintro ⟨s, t, rfl⟩
    exact ⟨s.length, by
      rw [List.append_assoc, List.drop_left]; exact List.prefix_append l₁ t⟩
  · rintro ⟨n, h⟩
    exact List.infix_iff_prefix_suffix.mpr ⟨l₂.drop n, h, List.drop_suffix n l₂⟩

theorem matchLike_any_drop (p : List LikeTok) (w : List Char) :
    matchLike (.any :: p) w = true ↔ ∃ n, matchLike p (w.drop n) = true := by
  simp only [matchLike, List.any_eq_true]
  constructor
  · rintro ⟨s, hs, hm⟩
    rcases (List.mem_tails s w).mp hs with ⟨u, rfl⟩
    exact ⟨u.length, by rwa [List.drop_left]⟩
  · rintro ⟨n, hm⟩
    exact ⟨w.drop n, (List.mem_tails _ w).mpr (List.drop_suffix n w), hm⟩

theorem likeFilter_iff (q w : String) : likeFilter q w = true ↔ ciSubstr q w := by
  have hdata : ("%" ++ escapeLike q ++ "%").data = '%' :: (escLikeChars q.data ++ ['%']) := by
    simp [String.data_append, escapeLike]
  have hparse : parseLike ('%' :: (escLikeChars q.data ++ ['%']))
      = .any :: (q.data.map LikeTok.lit ++ [.any]) := by
    rw [parseLike_any_cons, parseLike_escLike, parseLike_any_cons, parseLike_nil]
  unfold likeFilter
  rw [hdata, hparse, matchLike_any_drop]
  unfold ciSubstr
  rw [infix_iff_exists_drop]
  constructor
  · rintro ⟨n, hm⟩
    exact ⟨n, by rw [← List.map_drop]; exact (matchLike_lits_any q.data _).mp hm⟩
  · rintro ⟨n, hp⟩
    exact ⟨n, (matchLike_lits_any q.data _).mpr (by rwa [List.map_drop])⟩

theorem mem_fetchWords_search {lc : String → String → Ordering}
    {rows : List (Option String)} {q w : String} (hq : q ≠ "")
    (hw : w ∈ fetchWords lc rows q) : likeFilter q w = true := by
  unfold fetchWords at hw
  rw [if_pos hq] at hw
  have h1 := (List.mem_filter.mp ((mem_sortByCmp _ _ _).mp hw)).1
  unfold stmtSearchWords at h1
  have h2 := (mem_sortByCmp _ _ _).mp (List.mem_of_mem_take h1)
  exact (List.mem_filter.mp h2).2

theorem fetchWords_pairwise (lc : String → String → Ordering)
    (rows : List (Option String)) (q : String) (hc : ConsistentCmp lc) :
    (fetchWords lc rows q).Pairwise (cmpLe lc) := by
  have hasym : ∀ a b, cmpLower lc a b = .gt → cmpLower lc b a ≠ .gt :=
    fun a b h => hc.1 _ _ h
  have htrans : ∀ a b c, cmpLower lc a b ≠ .gt → cmpLower lc b c ≠ .gt →
      cmpLower lc a c ≠ .gt :=
    fun a b c h1 h2 => hc.2 _ _ _ h1 h2
  unfold fetchWords
  split
  · exact sortByCmp_pairwise (cmpLower lc) hasym htrans _
  · exact sortByCmp_pairwise (cmpLower lc) hasym htrans _

/-- C4: for every non-empty search query `q`, every term returned by the
search path of `fetchWords` (= `listTerms(q)`) contains `q` as a
case-insensitive substring, and the returned sequence is sorted ascending
case-insensitively: pairwise "not after" under the lowercased comparator
the code sorts with. -/
theorem c4_search_contains_and_sorted (lc : String → String → Ordering)
    (rows : List (Option String)) (q : String) (hq : q ≠ "")
    (hc : ConsistentCmp lc) :
    (∀ w ∈ fetchWords lc rows q, ciSubstr q w) ∧
      (fetchWords lc rows q).Pairwise (cmpLe lc) :=
  ⟨fun _ hw => (likeFilter_iff q _).mp (mem_fetchWords_search hq hw),
   fetchWords_pairwise lc rows q hc⟩

theorem c4_search_contains_and_sorted_witness :
    (∀ w ∈ fetchWords ordinalCompare [some "Heat pump", some "Torque"] "ea",
        ciSubstr "ea" w) ∧
      (fetchWords ordinalCompare [some "Heat pump", some "Torque"] "ea").Pairwise
        (cmpLe ordinalCompare) :=
  c4_search_contains_and_sorted ordinalCompare [some "Heat pump", some "Torque"]
    "ea" (by decide) ordinalCompare_consistent

/-- C6 counterexample: the empty string is a non-null term value, yet
`fetchWords` with the empty query never returns it (`filter(Boolean)` drops
falsy strings), so "returns every term whose value is non-null" fails. -/
theorem c6_counterexample_empty_term :
    (some "" ∈ ([some ""] : List (Option String))) ∧
      fetchWords ordinalCompare [some ""] "" = [] := by
  exact ⟨by decide, by decide⟩

/-- C6 amended: with the empty query, `fetchWords` returns exactly the terms
that are non-null AND non-empty (truthy) — provided the table has at most
10000 non-null terms, so the SQL `LIMIT` drops nothing — sorted ascending
case-insensitively by the lowercased comparator, and the result never
exceeds 10000 entries. -/
theorem c6_amended_list_all_truthy (lc : String → String → Ordering)
    (rows : List (Option String)) (hc : ConsistentCmp lc)
    (hlen : (rows.filterMap id).length ≤ 10000) :
    (∀ w : String, w ∈ fetchWords lc rows "" ↔ (some w ∈ rows ∧ w ≠ "")) ∧
      (fetchWords lc rows "").Pairwise (cmpLe lc) ∧
      (fetchWords lc rows "").length ≤ 10000 := by
  have hfw : fetchWords lc rows ""
      = sortByCmp (cmpLower lc) ((stmtListWords rows).filter (fun w => w ≠ "")) := by
    unfold fetchWords
    rw [if_neg (by simp)]
  have htake : stmtListWords rows = sortByCmp nocaseCmp (rows.filterMap id) := by
    unfold stmtListWords
    exact List.take_of_length_le (by rw [length_sortByCmp]; exact hlen)
  refine ⟨?_, fetchWords_pairwise lc rows "" hc, ?_⟩
  · intro w
    rw [hfw, mem_sortByCmp, List.mem_filter, htake, mem_sortByCmp]
    constructor
    · rintro ⟨h1, h2⟩
      rcases List.mem_filterMap.mp h1 with ⟨a, ha, hfa⟩
      have : a = some w := hfa
      exact ⟨this ▸ ha, by simpa using h2⟩
    · rintro ⟨h1, h2⟩
      exact ⟨List.mem_filterMap.mpr ⟨some w, h1, rfl⟩, by simpa⟩
  · rw [hfw, length_sortByCmp]
    calc ((stmtListWords rows).filter (fun w => w ≠ "")).length
        ≤ (stmtListWords rows).length := List.length_filter_le _ _
      _ ≤ 10000 := by unfold stmtListWords; exact List.length_take_le _ _

theorem c6_amended_list_all_truthy_witness :
    (∀ w : String, w ∈ fetchWords ordinalCompare [some "b", some "a", none, some ""] ""
        ↔ (some w ∈ ([some "b", some "a", none, some ""] : List (Option String)) ∧ w ≠ "")) ∧
      (fetchWords ordinalCompare [some "b", some "a", none, some ""] "").Pairwise
        (cmpLe ordinalCompare) ∧
      (fetchWords ordinalCompare [some "b", some "a", none, some ""] "").length ≤ 10000 :=
  c6_amended_list_all_truthy ordinalCompare [some "b", some "a", none, some ""]
    ordinalCompare_consistent (by decide)

/-- C3 counterexample: under an accent-aware host collation (a legal
`localeCompare` behaviour) the output of `fetchWords` is not ordered by
ordinal comparison of the lowercased terms: `é` sorts before `z` even though
its code point is larger, so the ordering is locale-dependent. -/
theorem c3_counterexample_locale_order :
    fetchWords accentCompare [some "z", some "é"] "" = ["é", "z"] ∧
      ¬ (fetchWords accentCompare [some "z", some "é"] "").Pairwise
          (cmpLe ordinalCompare) := by
  exact ⟨by decide, by decide⟩

/-- C3 amended: `fetchWords` sorts with
`a.toLowerCase().localeCompare(b.toLowerCase())`, so for any host comparator
that is a consistent comparison, every returned sequence (with or without a
query) is ascending for that lowercased comparator; the order agrees with
ordinal comparison only when the host collation is itself ordinal, and is
locale-dependent in general. -/
theorem c3_amended_sorted_by_locale (lc : String → String → Ordering)
    (rows : List (Option String)) (q : String) (hc : ConsistentCmp lc) :
    (fetchWords lc rows q).Pairwise (cmpLe lc) :=
  fetchWords_pairwise lc rows q hc

theorem c3_amended_sorted_by_locale_witness :
    (fetchWords ordinalCompare [some "b", some "A", some "c"] "").Pairwise
      (cmpLe ordinalCompare) :=
  c3_amended_sorted_by_locale ordinalCompare [some "b", some "A", some "c"] ""
    ordinalCompare_consistent

/-- C7: `fetchDetailByWord` performs an exact, case-sensitive match on the
term column: it returns `none` (not-found, distinct from an error) exactly
when no row's term equals the requested word under plain string equality,
and any returned record is unique (an `Option` holds at most one value) and
carries exactly the requested word. -/
theorem c7_get_term_exact (rows : List DbRow) (word : String) :
    (fetchDetailByWord rows word = none ↔ ∀ r ∈ rows, r.w ≠ some word) ∧
      (∀ rec, fetchDetailByWord rows word = some rec → rec.word = some word) := by
  constructor
  · unfold fetchDetailByWord stmtDetailByWord
    rw [Option.map_eq_none', List.head?_eq_none_iff, List.filter_eq_nil_iff]
    simp
  · intro rec h
    unfold fetchDetailByWord stmtDetailByWord at h
    rcases Option.map_eq_some'.mp h with ⟨row, hrow, hrec⟩
    have hmem : row ∈ rows.filter (fun r => r.w = some word) :=
      List.mem_of_mem_head? hrow
    have hw := (List.mem_filter.mp hmem).2
    rw [← hrec]
    simpa using hw

theorem c7_get_term_exact_witness :
    fetchDetailByWord [⟨some "Gear", some "چرخ‌دنده", none, none⟩] "gear" = none ∧
      (∀ rec, fetchDetailByWord [⟨some "Gear", some "چرخ‌دنده", none, none⟩] "Gear"
          = some rec → rec.word = some "Gear") :=
  ⟨(c7_get_term_exact [⟨some "Gear", some "چرخ‌دنده", none, none⟩] "gear").1.mpr
      (by decide),
   (c7_get_term_exact [⟨some "Gear", some "چرخ‌دنده", none, none⟩] "Gear").2⟩

/-- C10 (implicit): a row whose term value is the empty string (or `NULL`)
never appears in the sequence returned by `fetchWords`, for the empty query
and for search queries alike, because of the `filter(Boolean)` step. -/
theorem c10_empty_term_never_listed (lc : String → String → Ordering)
    (rows : List (Option String)) (q : String) : "" ∉ fetchWords lc rows q := by
  have key : ∀ X : List String,
      "" ∉ sortByCmp (cmpLower lc) (X.filter (fun w => w ≠ "")) := by
    intro X h
    have := (List.mem_filter.mp ((mem_sortByCmp _ _ _).mp h)).2
    simp at this
  unfold fetchWords
  split
  · exact key _
  · exact key _

theorem c10_empty_term_never_listed_witness :
    "" ∉ fetchWords ordinalCompare [some "", some "a"] "a" :=
  c10_empty_term_never_listed ordinalCompare [some "", some "a"] "a"

/-- C1 counterexample: a partial override (table, term and definition columns
set, audio column missing) is NOT rejected: startup succeeds (`Except.ok`,
the process starts) and silently keeps the inferred binding. -/
theorem c1_partial_override_not_rejected :
    startupSchema [("words", ["w", "m", "a", "k"])]
        (some "T") (some "W") (some "M") none none
      = .ok ⟨"words", "w", "m", "a", some "k"⟩ ∧
      (startupSchema [("words", ["w", "m", "a", "k"])]
          (some "T") (some "W") (some "M") none none).isOk = true := by
  exact ⟨rfl, rfl⟩

/-- C1 amended: a partial override with the audio column unset is silently
ignored — startup returns whatever schema discovery returns, with the
inferred binding; supplying all four of table/term/definition/audio
(non-empty) while discovery succeeds yields the override binding with
`wikiCol = none` when the link column is omitted. -/
theorem c1_amended_override_semantics :
    (∀ tables eT eW eM eWiki,
        startupSchema tables eT eW eM none eWiki = discoverSchema tables) ∧
      (∀ tables meta t w m a, discoverSchema tables = .ok meta →
        t ≠ "" → w ≠ "" → m ≠ "" → a ≠ "" →
        startupSchema tables (some t) (some w) (some m) (some a) none
          = .ok ⟨t, w, m, a, none⟩) := by
  constructor
  · intro tables eT eW eM eWiki
    unfold startupSchema
    have hover : ∀ meta, envOverride meta eT eW eM none eWiki = meta := by
      intro meta; cases eT <;> cases eW <;> cases eM <;> rfl
    cases hd : discoverSchema tables <;> simp [Except.map, hover]
  · intro tables meta t w m a hd ht hw' hm' ha'
    unfold startupSchema
    rw [hd]
    show Except.ok (envOverride meta (some t) (some w) (some m) (some a) none) = _
    simp [envOverride, ht, hw', hm', ha', jsOrNull]

theorem c1_amended_override_semantics_witness :
    (startupSchema [("words", ["w", "m", "a", "k"])]
        (some "T") (some "W") (some "M") none none
      = discoverSchema [("words", ["w", "m", "a", "k"])]) ∧
      startupSchema [("words", ["w", "m", "a", "k"])]
          (some "T") (some "W") (some "M") (some "A") none
        = .ok ⟨"T", "W", "M", "A", none⟩ :=
  ⟨c1_amended_override_semantics.1 _ _ _ _ _,
   c1_amended_override_semantics.2 [("words", ["w", "m", "a", "k"])]
     ⟨"words", "w", "m", "a", some "k"⟩ "T" "W" "M" "A" rfl
     (by decide) (by decide) (by decide) (by decide)⟩

theorem splitAtWs_ne_nil : ∀ l : List Char, splitAtWs l ≠ [] := by
  intro l
  cases l with
  | nil => simp [splitAtWs]
  | cons c cs =>
    simp only [splitAtWs]
    cases h : splitAtWs cs with
    | nil => simp
    | cons t ts => split_ifs <;> simp

theorem splitAtWs_flatten :
    ∀ l : List Char, (splitAtWs l).flatten = l.filter (fun c => !isJsWs c) := by
  intro l
  induction l with
  | nil => simp [splitAtWs]
  | cons c cs ih =>
    simp only [splitAtWs]
    cases h : splitAtWs cs with
    | nil => exact absurd h (splitAtWs_ne_nil cs)
    | cons t ts =>
      rw [h] at ih
      by_cases hc : isJsWs c
      · simp [hc, ih]
      · simp [hc, ← ih]

theorem filter_dropWhile_ws (l : List Char) :
    (l.dropWhile isJsWs).filter (fun c => !isJsWs c) = l.filter (fun c => !isJsWs c) := by
  induction l with
  | nil => rfl
  | cons c cs ih =>
    by_cases hc : isJsWs c
    · simp [List.dropWhile_cons, hc, ih]
    · simp [List.dropWhile_cons, hc]

theorem filter_jsTrim (l : List Char) :
    (jsTrim l).filter (fun c => !isJsWs c) = l.filter (fun c => !isJsWs c) := by
  unfold jsTrim
  rw [List.filter_reverse, filter_dropWhile_ws, List.filter_reverse,
    List.reverse_reverse, filter_dropWhile_ws]

/-- C9: the playback plan splits its input on runs of whitespace, discards
empty tokens (so the empty string never occurs in a plan) and preserves the
original order of the remaining characters (their concatenation equals the
input minus its whitespace); `"a.mp3  b.mp3   c.mp3"` yields the three file
names in order, and a missing, empty or whitespace-only input yields the
empty plan. -/
theorem c9_audio_plan :
    buildAudioPlan (some "a.mp3  b.mp3   c.mp3") = ["a.mp3", "b.mp3", "c.mp3"] ∧
      buildAudioPlan none = [] ∧
      buildAudioPlan (some "") = [] ∧
      buildAudioPlan (some "   ") = [] ∧
      (∀ s : String, "" ∉ buildAudioPlan (some s)) ∧
      (∀ s : String, ((buildAudioPlan (some s)).map String.data).flatten
        = s.data.filter (fun c => !isJsWs c)) := by
  refine ⟨by decide, rfl, by decide, by decide, ?_, ?_⟩
  · intro s h
    simp only [buildAudioPlan] at h
    split_ifs at h with hs
    · simp at h
    · rcases List.mem_map.mp h with ⟨t, ht, hmk⟩
      have hne := (List.mem_filter.mp ht).2
      have : t = [] := congrArg String.data hmk
      simp [this] at hne
  · intro s
    by_cases hs : s = ""
    · subst hs; decide
    · simp only [buildAudioPlan]
      rw [if_neg hs, List.map_map]
      have : (String.data ∘ String.mk) = id := rfl
      rw [this, List.map_id, List.flatten_filter_ne_nil, splitAtWs_flatten, filter_jsTrim]

theorem c9_audio_plan_witness :
    "" ∉ buildAudioPlan (some " x  y ") ∧
      ((buildAudioPlan (some " x  y ")).map String.data).flatten
        = " x  y ".data.filter (fun c => !isJsWs c) :=
  ⟨c9_audio_plan.2.2.2.2.1 " x  y ", c9_audio_plan.2.2.2.2.2 " x  y "⟩

theorem digitChar_mem_digits : ∀ d : Nat,
    digitChar d ∈ ['0', '1', '2', '3', '4', '5', '6', '7', '8', '9'] := by
  intro d
  rcases d with _ | _ | _ | _ | _ | _ | _ | _ | _ | d <;> simp [digitChar]

theorem natDigitsGo_congr : ∀ f₁ f₂ n : Nat, n < f₁ → n < f₂ →
    natDigitsGo f₁ n = natDigitsGo f₂ n := by
  intro f₁
  induction f₁ with
  | zero => intro f₂ n h; omega
  | succ f ih =>
    intro f₂ n h1 h2
    cases f₂ with
    | zero => omega
    | succ f' =>
      simp only [natDigitsGo]
      by_cases hn : n < 10
      · simp [hn]
      · have hdiv : n / 10 < n := Nat.div_lt_self (by omega) (by omega)
        simp only [hn, if_false]
        rw [ih f' (n / 10) (by omega) (by omega)]

theorem natDigits_unfold (n : Nat) : natDigits n =
    if n < 10 then [digitChar n]
    else natDigits (n / 10) ++ [digitChar (n % 10)] := by
  unfold natDigits
  rw [show natDigitsGo (n + 1) n =
      if n < 10 then [digitChar n] else natDigitsGo n (n / 10) ++ [digitChar (n % 10)]
    from rfl]
  by_cases hn : n < 10
  · simp [hn]
  · have hdiv : n / 10 < n := Nat.div_lt_self (by omega) (by omega)
    simp only [hn, if_false]
    rw [natDigitsGo_congr n (n / 10 + 1) (n / 10) (by omega) (by omega)]

theorem natDigits_ne_nil (n : Nat) : natDigits n ≠ [] := by
  rw [natDigits_unfold]
  split <;> simp

theorem mem_natDigits_digits : ∀ n : Nat, ∀ c ∈ natDigits n,
    c ∈ ['0', '1', '2', '3', '4', '5', '6', '7', '8', '9'] := by
  intro n
  induction n using Nat.strong_induction_on with
  | _ n ih =>
    intro c hc
    rw [natDigits_unfold] at hc
    by_cases hn : n < 10
    · rw [if_pos hn] at hc
      simp only [List.mem_singleton] at hc
      exact hc ▸ digitChar_mem_digits n
    · rw [if_neg hn] at hc
      rcases List.mem_append.mp hc with h | h
      · exact ih (n / 10) (Nat.div_lt_self (by omega) (by omega)) c h
      · simp only [List.mem_singleton] at h
        exact h ▸ digitChar_mem_digits (n % 10)

theorem natDigits_no_special : ∀ n : Nat, ∀ c ∈ natDigits n,
    c ≠ '<' ∧ c ≠ '$' ∧ c ≠ '-' ∧ isJsWs c = false := by
  intro n c hc
  have := mem_natDigits_digits n c hc
  fin_cases this <;> refine ⟨by decide, by decide, by decide, by decide⟩

theorem digitsVal_append (l : List Char) (c : Char) :
    digitsVal (l ++ [c]) = digitsVal l * 10 + (c.toNat - 48) := by
  unfold digitsVal
  rw [List.foldl_append]
  rfl

theorem digitChar_toNat (d : Nat) (h : d < 10) : (digitChar d).toNat = 48 + d := by
  interval_cases d <;> decide

theorem digitsVal_natDigits : ∀ n : Nat, digitsVal (natDigits n) = n := by
  intro n
  induction n using Nat.strong_induction_on with
  | _ n ih =>
    rw [natDigits_unfold]
    by_cases hn : n < 10
    · rw [if_pos hn]
      show 0 * 10 + ((digitChar n).toNat - 48) = n
      rw [digitChar_toNat n hn]
      omega
    · rw [if_neg hn, digitsVal_append,
        ih (n / 10) (Nat.div_lt_self (by omega) (by omega)),
        digitChar_toNat (n % 10) (by omega)]
      omega

theorem natDigits_inj {i j : Nat} (h : natDigits i = natDigits j) : i = j := by
  rw [← digitsVal_natDigits i, ← digitsVal_natDigits j, h]

theorem token_eq_append (i : Nat) :
    token i = (pfxTok ++ natDigits i) ++ "-->".data := by
  unfold token
  rw [List.append_assoc]

theorem token_ne_nil (i : Nat) : token i ≠ [] := by
  rw [token_eq_append]
  simp [pfxTok]

theorem token_cons (i : Nat) :
    token i = '<' :: (("!--knt-math-p".data ++ natDigits i) ++ "-->".data) := by
  rw [token_eq_append]
  rw [show pfxTok = '<' :: "!--knt-math-p".data from by decide]
  simp

theorem token_head (i : Nat) : (token i).head? = some '<' := by
  rw [token_cons]; rfl

theorem token_snd (i : Nat) :
    ∃ pt, token i = '<' :: '!' :: pt := by
  refine ⟨("--knt-math-p".data ++ natDigits i) ++ "-->".data, ?_⟩
  rw [token_cons]
  rw [show "!--knt-math-p".data = '!' :: "--knt-math-p".data from by decide]
  simp

theorem lt_not_mem_token_drop1 (i : Nat) : '<' ∉ (token i).drop 1 := by
  rw [token_cons]
  intro h
  simp only [List.drop_succ_cons, List.drop_zero] at h
  rcases List.mem_append.mp h with h' | h'
  · rcases List.mem_append.mp h' with h'' | h''
    · revert h''; decide
    · exact ((natDigits_no_special i '<' h'').1 rfl)
  · revert h'; decide

theorem dollar_not_mem_token (i : Nat) : '$' ∉ token i := by
  rw [token_eq_append]
  intro h
  rcases List.mem_append.mp h with h' | h'
  · rcases List.mem_append.mp h' with h'' | h''
    · revert h''; decide
    · exact ((natDigits_no_special i '$' h'').2.1 rfl)
  · revert h'; decide

theorem ws_not_mem_token (i : Nat) : ∀ c ∈ token i, isJsWs c = false := by
  rw [token_eq_append]
  intro c h
  have hpfx : ∀ x ∈ pfxTok, isJsWs x = false := by decide
  have harr : ∀ x ∈ "-->".data, isJsWs x = false := by decide
  rcases List.mem_append.mp h with h' | h'
  · rcases List.mem_append.mp h' with h'' | h''
    · exact hpfx c h''
    · exact (natDigits_no_special i c h'').2.2.2
  · exact harr c h'

theorem count_lt_token (i : Nat) : (token i).count '<' = 1 := by
  rw [token_eq_append]
  rw [List.count_append, List.count_append]
  rw [show (pfxTok.count '<') = 1 from by decide]
  rw [List.count_eq_zero_of_not_mem (fun h => (natDigits_no_special i '<' h).1 rfl)]
  rw [show ("-->".data.count '<') = 0 from by decide]

theorem pfx_prefix_token (i : Nat) : pfxTok <+: token i := by
  rw [token_eq_append]
  exact (List.prefix_append pfxTok (natDigits i)).trans
    (List.prefix_append (pfxTok ++ natDigits i) "-->".data)

theorem pfx_length_lt_token (i : Nat) : pfxTok.length < (token i).length := by
  rw [token_eq_append]
  simp only [List.length_append]
  have := natDigits_ne_nil i
  have : 0 < (natDigits i).length := List.length_pos.mpr this
  simp [pfxTok]
  omega

theorem digits_marker_prefix : ∀ (a : List Char), ∀ (b r r' : List Char),
    (∀ c ∈ a, c ≠ '-') → (∀ c ∈ b, c ≠ '-') →
    (a ++ '-' :: r <+: b ++ '-' :: r') → a = b := by
  intro a
  induction a with
  | nil =>
    intro b r r' _ hb h
    cases b with
    | nil => rfl
    | cons x bs =>
      simp only [List.nil_append, List.cons_append, List.cons_prefix_cons] at h
      exact absurd h.1.symm (hb x (List.mem_cons_self x bs))
  | cons x as ih =>
    intro b r r' ha hb h
    cases b with
    | nil =>
      simp only [List.cons_append, List.nil_append, List.cons_prefix_cons] at h
      exact absurd h.1 (ha x (List.mem_cons_self x as))
    | cons y bs =>
      simp only [List.cons_append, List.cons_prefix_cons] at h
      have := ih bs r r' (fun c hc => ha c (List.mem_cons_of_mem x hc))
        (fun c hc => hb c (List.mem_cons_of_mem y hc)) h.2
      rw [h.1, this]

theorem token_prefix_token {j i : Nat} {X : List Char}
    (h : token j <+: token i ++ X) : j = i := by
  rw [token_eq_append, token_eq_append] at h
  simp only [List.append_assoc] at h
  rw [List.prefix_append_right_inj] at h
  apply natDigits_inj
  exact digits_marker_prefix (natDigits j) (natDigits i) ['-', '>'] (['-', '>'] ++ X)
    (fun c hc => (natDigits_no_special j c hc).2.2.1)
    (fun c hc => (natDigits_no_special i c hc).2.2.1) h

theorem countOcc_nil {pat : List Char} (hne : pat ≠ []) : countOcc pat [] = 0 := by
  simp [countOcc, List.isEmpty_iff, hne]

theorem countOcc_cons (pat : List Char) (c : Char) (l : List Char) :
    countOcc pat (c :: l) = (if pat <+: c :: l then 1 else 0) + countOcc pat l := by
  simp [countOcc, List.isPrefixOf_iff_prefix]

theorem countOcc_pos_iff {pat : List Char} (hne : pat ≠ []) (l : List Char) :
    0 < countOcc pat l ↔ pat <:+: l := by
  induction l with
  | nil => simp [countOcc_nil hne, hne]
  | cons c l' ih =>
    rw [countOcc_cons, List.infix_cons_iff]
    by_cases hp : pat <+: c :: l'
    · simp [hp]
    · simp [hp, ih]

theorem countOcc_eq_zero {pat : List Char} (hne : pat ≠ []) (l : List Char) :
    countOcc pat l = 0 ↔ ¬ pat <:+: l := by
  rw [← countOcc_pos_iff hne]
  omega

theorem prefix_of_append_of_le {pat x y : List Char} (h : pat <+: x ++ y)
    (hl : pat.length ≤ x.length) : pat <+: x := by
  rw [List.prefix_iff_eq_take] at h ⊢
  rw [List.take_append_eq_append_take, Nat.sub_eq_zero_of_le hl,
    List.take_zero, List.append_nil] at h
  exact h

theorem append_of_prefix_of_ge {pat x y : List Char} (h : pat <+: x ++ y)
    (hl : x.length ≤ pat.length) : x <+: pat ∧ pat.drop x.length <+: y := by
  have h' := List.prefix_iff_eq_take.mp h
  rw [List.take_append_eq_append_take, List.take_of_length_le hl] at h'
  constructor
  · exact ⟨y.take (pat.length - x.length), h'.symm⟩
  · rw [h', List.drop_left]
    exact List.take_prefix _ y

theorem countOcc_append_nostraddle (pat : List Char) (x y : List Char)
    (hpat : pat ≠ [])
    (h : ∀ a b, pat = a ++ b → a ≠ [] → b ≠ [] → a <:+ x → ¬ b <+: y) :
    countOcc pat (x ++ y) = countOcc pat x + countOcc pat y := by
  induction x with
  | nil => simp [countOcc_nil hpat]
  | cons c x' ih =>
    have hsub : ∀ a b, pat = a ++ b → a ≠ [] → b ≠ [] → a <:+ x' → ¬ b <+: y :=
      fun a b hp ha hb hs => h a b hp ha hb (hs.trans (List.suffix_cons c x'))
    rw [List.cons_append, countOcc_cons, countOcc_cons, ih hsub]
    have hiff : (pat <+: c :: (x' ++ y)) ↔ (pat <+: c :: x') := by
      constructor
      · intro hp
        have hp' : pat <+: (c :: x') ++ y := hp
        by_cases hl : pat.length ≤ (c :: x').length
        · exact prefix_of_append_of_le hp' hl
        · exfalso
          have hle : (c :: x').length ≤ pat.length := by omega
          rcases append_of_prefix_of_ge hp' hle with ⟨hx, hdrop⟩
          rcases hx with ⟨t, ht⟩
          have htb : pat.drop (c :: x').length = t := by
            rw [← ht, List.drop_left]
          have hlen := congrArg List.length ht
          simp only [List.length_append] at hlen
          have htne : t ≠ [] := by
            intro ht0
            subst ht0
            simp only [List.length_nil, Nat.add_zero] at hlen
            omega
          exact h (c :: x') t ht.symm (by simp) htne List.suffix_rfl
            (htb ▸ hdrop)
      · intro hp
        exact hp.trans (List.prefix_append (c :: x') y)
    have hind : (if pat <+: c :: (x' ++ y) then 1 else 0)
        = (if pat <+: c :: x' then 1 else 0) := by
      by_cases hp2 : pat <+: c :: x'
      · rw [if_pos hp2, if_pos (hiff.mpr hp2)]
      · rw [if_neg hp2, if_neg (fun hx => hp2 (hiff.mp hx))]
    rw [hind]
    omega

theorem countOcc_le_count_head (pat : List Char) (c : Char)
    (hh : pat.head? = some c) : ∀ l : List Char, countOcc pat l ≤ l.count c := by
  intro l
  induction l with
  | nil =>
    cases pat with
    | nil => simp at hh
    | cons p pt => simp [countOcc]
  | cons d l' ih =>
    rw [countOcc_cons]
    by_cases hp : pat <+: d :: l'
    · have hd : d = c := by
        cases pat with
        | nil => simp at hh
        | cons p pt =>
          have := (List.cons_prefix_cons.mp hp).1
          simp only [List.head?_cons, Option.some.injEq] at hh
          rw [← this, hh]
      rw [if_pos hp, hd]
      have hcnt : (c :: l').count c = l'.count c + 1 := by
        rw [List.count_cons]; simp
      rw [hcnt]
      omega
    · rw [if_neg hp]
      have hcnt : l'.count c ≤ (d :: l').count c := by
        rw [List.count_cons]; split <;> omega
      omega

theorem suffix_head_lt_token {a : List Char} {i : Nat} (ha : a <:+ token i)
    (hh : a.head? = some '<') : a = token i := by
  rcases ha with ⟨t, ht⟩
  cases t with
  | nil => simpa using ht
  | cons c ts =>
    exfalso
    cases a with
    | nil => simp at hh
    | cons a0 a' =>
      simp only [List.head?_cons, Option.some.injEq] at hh
      have hdrop : (token i).drop 1 = ts ++ (a0 :: a') := by
        rw [← ht]
        simp
      have : '<' ∈ (token i).drop 1 := by
        rw [hdrop]
        exact List.mem_append.mpr (Or.inr (hh ▸ List.mem_cons_self a0 a'))
      exact lt_not_mem_token_drop1 i this

theorem countOcc_token_token (j i : Nat) :
    countOcc (token j) (token i) = if j = i then 1 else 0 := by
  by_cases hji : j = i
  · subst hji
    rw [if_pos rfl]
    have h1 : 0 < countOcc (token j) (token j) :=
      (countOcc_pos_iff (token_ne_nil j) _).mpr List.infix_rfl
    have h2 : countOcc (token j) (token j) ≤ (token j).count '<' :=
      countOcc_le_count_head _ _ (token_head j) _
    rw [count_lt_token j] at h2
    omega
  · rw [if_neg hji]
    rw [countOcc_eq_zero (token_ne_nil j)]
    intro hinf
    rcases infix_iff_exists_drop.mp hinf with ⟨n, hp⟩
    cases n with
    | zero =>
      rw [List.drop_zero] at hp
      exact hji (token_prefix_token (X := []) (by rwa [List.append_nil]))
    | succ n' =>
      have hne := token_ne_nil j
      cases htok : token j with
      | nil => exact hne htok
      | cons t0 tr =>
        have ht0 : t0 = '<' := by
          have := token_head j
          rw [htok] at this
          simpa using this
        rw [htok] at hp
        rcases hp with ⟨rest, hrest⟩
        have hmem : '<' ∈ (token i).drop (n' + 1) := by
          rw [← hrest]
          exact ht0 ▸ List.mem_append.mpr (Or.inl (List.mem_cons_self t0 tr))
        have hsub : (token i).drop (n' + 1) ⊆ (token i).drop 1 := by
          intro c hc
          rw [show n' + 1 = 1 + n' from by omega, ← List.drop_drop] at hc
          exact List.drop_subset n' _ hc
        exact lt_not_mem_token_drop1 i (hsub hmem)

theorem countOcc_pfx_token (i : Nat) : countOcc pfxTok (token i) = 1 := by
  have h1 : 0 < countOcc pfxTok (token i) :=
    (countOcc_pos_iff (by decide) _).mpr (pfx_prefix_token i).isInfix
  have h2 : countOcc pfxTok (token i) ≤ (token i).count '<' :=
    countOcc_le_count_head _ _ (by decide) _
  rw [count_lt_token i] at h2
  omega

theorem prefix_part_head {pat a b : List Char} (hab : pat = a ++ b)
    (ha : a ≠ []) (hh : pat.head? = some '<') : a.head? = some '<' := by
  cases a with
  | nil => exact absurd rfl ha
  | cons a0 a' =>
    rw [hab] at hh
    simpa using hh

theorem prefix_head_eq {b y : List Char} (hby : b <+: y) (hb : b ≠ []) :
    b.head? = y.head? := by
  cases b with
  | nil => exact absurd rfl hb
  | cons b0 b' =>
    rcases hby with ⟨t, ht⟩
    rw [← ht]
    rfl

theorem countOcc_tok_token_append (j i : Nat) (y : List Char) :
    countOcc (token j) (token i ++ y)
      = (if j = i then 1 else 0) + countOcc (token j) y := by
  rw [countOcc_append_nostraddle (token j) (token i) y (token_ne_nil j)
    ?nostraddle, countOcc_token_token]
  case nostraddle =>
    intro a b hab ha hb hsuf hby
    have hhead : a.head? = some '<' := prefix_part_head hab ha (token_head j)
    have haeq : a = token i := suffix_head_lt_token hsuf hhead
    rw [haeq] at hab
    have hji : j = i := token_prefix_token (X := b) (hab ▸ List.prefix_rfl)
    rw [hji] at hab
    have hlen := congrArg List.length hab
    simp only [List.length_append] at hlen
    exact hb (List.eq_nil_of_length_eq_zero (by omega))

theorem countOcc_pfx_token_append (i : Nat) (y : List Char) :
    countOcc pfxTok (token i ++ y) = 1 + countOcc pfxTok y := by
  rw [countOcc_append_nostraddle pfxTok (token i) y (by decide)
    ?nostraddle, countOcc_pfx_token]
  case nostraddle =>
    intro a b hab ha hb hsuf hby
    have hhead : a.head? = some '<' := prefix_part_head hab ha (by decide)
    have haeq : a = token i := suffix_head_lt_token hsuf hhead
    rw [haeq] at hab
    have hlen := congrArg List.length hab
    simp only [List.length_append] at hlen
    have := pfx_length_lt_token i
    omega

theorem countOcc_cons_ne {pat : List Char} (c : Char) (l : List Char)
    (hne : pat ≠ []) (hh : pat.head? ≠ some c) :
    countOcc pat (c :: l) = countOcc pat l := by
  rw [countOcc_cons, if_neg, Nat.zero_add]
  intro hp
  cases pat with
  | nil => exact hne rfl
  | cons p pt =>
    have := (List.cons_prefix_cons.mp hp).1
    exact hh (by rw [this]; rfl)

theorem countOcc_append_dollar (pat : List Char) (x y : List Char)
    (hpat : pat ≠ []) (hd : '$' ∉ pat) (hy : y.head? = some '$') :
    countOcc pat (x ++ y) = countOcc pat x + countOcc pat y := by
  apply countOcc_append_nostraddle pat x y hpat
  intro a b hab ha hb hsuf hby
  have := prefix_head_eq hby hb
  rw [hy] at this
  cases b with
  | nil => exact hb rfl
  | cons b0 b' =>
    simp only [List.head?_cons, Option.some.injEq] at this
    exact hd (hab ▸ List.mem_append.mpr (Or.inr (this ▸ List.mem_cons_self b0 b')))

theorem countOcc_append_before_token (pat : List Char) (x : List Char)
    (hpat : pat ≠ []) (hhead : pat.head? = some '<') (htail : '<' ∉ pat.drop 1)
    (i : Nat) (y : List Char) :
    countOcc pat (x ++ (token i ++ y))
      = countOcc pat x + countOcc pat (token i ++ y) := by
  apply countOcc_append_nostraddle pat x _ hpat
  intro a b hab ha hb hsuf hby
  have hbh := prefix_head_eq hby hb
  have hth : (token i ++ y).head? = some '<' := by
    rw [token_cons]
    rfl
  rw [hth] at hbh
  have hbsub : b ⊆ pat.drop 1 := by
    intro c hc
    have hba : b = pat.drop a.length := by
      rw [hab, List.drop_left]
    have halen : 1 ≤ a.length :=
      Nat.one_le_iff_ne_zero.mpr (fun h0 => ha (List.eq_nil_of_length_eq_zero h0))
    rw [hba, show a.length = 1 + (a.length - 1) from by omega, ← List.drop_drop] at hc
    exact List.drop_subset _ _ hc
  cases b with
  | nil => exact hb rfl
  | cons b0 b' =>
    simp only [List.head?_cons, Option.some.injEq] at hbh
    exact htail (hbsub (hbh ▸ List.mem_cons_self b0 b'))

theorem ddSplit_cons_generic (c : Char) (rest : List Char)
    (h : ∀ r, c = '$' → rest = '$' :: r → False) :
    ddSplit (c :: rest) = match ddSplit rest with
      | [] => [[c]]
      | t :: ts => (c :: t) :: ts := by
  rw [ddSplit.eq_def]
  split
  · simp_all
  · rename_i r heq
    exfalso
    injection heq with h1 h2
    exact h r h1 h2
  · rename_i c' rest' hguard heq
    injection heq with h1 h2
    subst h1
    subst h2
    rfl

theorem sSplit_cons_generic (c : Char) (rest : List Char) (hc : c ≠ '$') :
    sSplit (c :: rest) = match sSplit rest with
      | [] => [[c]]
      | t :: ts => (c :: t) :: ts := by
  rw [sSplit.eq_def]
  split
  · simp_all
  · rename_i heq
    exfalso
    injection heq with h1 _
    exact hc h1
  · rename_i c' rest' hguard heq
    injection heq with h1 h2
    subst h1
    subst h2
    rfl

theorem ddSplit_ne_nil : ∀ l : List Char, ddSplit l ≠ [] := by
  intro l
  induction l using ddSplit.induct with
  | case1 => simp [ddSplit]
  | case2 rest ih => simp [ddSplit]
  | case3 c rest hguard hsplit ih =>
    rw [ddSplit_cons_generic c rest (fun r h1 h2 => hguard r h1 h2), hsplit]
    simp
  | case4 c rest hguard t ts hsplit ih =>
    rw [ddSplit_cons_generic c rest (fun r h1 h2 => hguard r h1 h2), hsplit]
    simp

theorem sSplit_ne_nil : ∀ l : List Char, sSplit l ≠ [] := by
  intro l
  induction l using sSplit.induct with
  | case1 => simp [sSplit]
  | case2 rest ih => simp [sSplit]
  | case3 c rest hguard hsplit ih =>
    rw [sSplit_cons_generic c rest (fun h1 => hguard h1), hsplit]
    simp
  | case4 c rest hguard t ts hsplit ih =>
    rw [sSplit_cons_generic c rest (fun h1 => hguard h1), hsplit]
    simp

theorem ddUnsplit_ddSplit : ∀ l : List Char, ddUnsplit (ddSplit l) = l := by
  intro l
  induction l using ddSplit.induct with
  | case1 => rfl
  | case2 rest ih =>
    rw [show ddSplit ('$' :: '$' :: rest) = [] :: ddSplit rest from rfl]
    rcases hX : ddSplit rest with _ | ⟨t, ts⟩
    · exact absurd hX (ddSplit_ne_nil rest)
    · rw [hX] at ih
      rw [show ddUnsplit ([] :: t :: ts) = [] ++ '$' :: '$' :: ddUnsplit (t :: ts) from rfl]
      rw [ih]
      rfl
  | case3 c rest hguard hsplit ih =>
    exact absurd hsplit (ddSplit_ne_nil rest)
  | case4 c rest hguard t ts hsplit ih =>
    rw [ddSplit_cons_generic c rest (fun r h1 h2 => hguard r h1 h2), hsplit]
    rw [hsplit] at ih
    cases ts with
    | nil =>
      rw [show ddUnsplit [c :: t] = c :: t from rfl]
      rw [show ddUnsplit [t] = t from rfl] at ih
      rw [ih]
    | cons t2 ts' =>
      rw [show ddUnsplit ((c :: t) :: t2 :: ts') = (c :: t) ++ '$' :: '$' :: ddUnsplit (t2 :: ts') from rfl]
      rw [show ddUnsplit (t :: t2 :: ts') = t ++ '$' :: '$' :: ddUnsplit (t2 :: ts') from rfl] at ih
      rw [← ih]
      rfl

theorem sUnsplit_sSplit : ∀ l : List Char, sUnsplit (sSplit l) = l := by
  intro l
  induction l using sSplit.induct with
  | case1 => rfl
  | case2 rest ih =>
    rw [show sSplit ('$' :: rest) = [] :: sSplit rest from rfl]
    rcases hX : sSplit rest with _ | ⟨t, ts⟩
    · exact absurd hX (sSplit_ne_nil rest)
    · rw [hX] at ih
      rw [show sUnsplit ([] :: t :: ts) = [] ++ '$' :: sUnsplit (t :: ts) from rfl]
      rw [ih]
      rfl
  | case3 c rest hguard hsplit ih =>
    exact absurd hsplit (sSplit_ne_nil rest)
  | case4 c rest hguard t ts hsplit ih =>
    rw [sSplit_cons_generic c rest (fun h1 => hguard h1), hsplit]
    rw [hsplit] at ih
    cases ts with
    | nil =>
      rw [show sUnsplit [c :: t] = c :: t from rfl]
      rw [show sUnsplit [t] = t from rfl] at ih
      rw [ih]
    | cons t2 ts' =>
      rw [show sUnsplit ((c :: t) :: t2 :: ts') = (c :: t) ++ '$' :: sUnsplit (t2 :: ts') from rfl]
      rw [show sUnsplit (t :: t2 :: ts') = t ++ '$' :: sUnsplit (t2 :: ts') from rfl] at ih
      rw [← ih]
      rfl

theorem mem_infix_ddUnsplit : ∀ (pieces : List (List Char)) (p : List Char),
    p ∈ pieces → p <:+: ddUnsplit pieces := by
  intro pieces
  induction pieces with
  | nil => intro p hp; simp at hp
  | cons q ps ih =>
    intro p hp
    cases ps with
    | nil =>
      rcases List.mem_singleton.mp hp with rfl
      exact List.infix_rfl
    | cons r ps' =>
      rw [show ddUnsplit (q :: r :: ps') = q ++ '$' :: '$' :: ddUnsplit (r :: ps') from rfl]
      rcases List.mem_cons.mp hp with rfl | hp'
      · exact (List.prefix_append p _).isInfix
      · exact (ih p hp').trans ⟨q ++ ['$', '$'], [], by simp⟩

theorem mem_infix_sUnsplit : ∀ (pieces : List (List Char)) (p : List Char),
    p ∈ pieces → p <:+: sUnsplit pieces := by
  intro pieces
  induction pieces with
  | nil => intro p hp; simp at hp
  | cons q ps ih =>
    intro p hp
    cases ps with
    | nil =>
      rcases List.mem_singleton.mp hp with rfl
      exact List.infix_rfl
    | cons r ps' =>
      rw [show sUnsplit (q :: r :: ps') = q ++ '$' :: sUnsplit (r :: ps') from rfl]
      rcases List.mem_cons.mp hp with rfl | hp'
      · exact (List.prefix_append p _).isInfix
      · exact (ih p hp').trans ⟨q ++ ['$'], [], by simp⟩

theorem pat_head_ne_dollar {pat : List Char} (hd : '$' ∉ pat) :
    pat.head? ≠ some '$' := by
  cases pat with
  | nil => simp
  | cons p pt =>
    intro h
    simp only [List.head?_cons, Option.some.injEq] at h
    exact hd (h ▸ List.mem_cons_self p pt)

theorem countOcc_sUnsplit (pat : List Char) (hpat : pat ≠ []) (hd : '$' ∉ pat) :
    ∀ pieces : List (List Char),
      countOcc pat (sUnsplit pieces) = (pieces.map (countOcc pat)).sum := by
  intro pieces
  induction pieces with
  | nil => simp [sUnsplit, countOcc_nil hpat]
  | cons q ps ih =>
    cases ps with
    | nil => simp [sUnsplit]
    | cons r ps' =>
      rw [show sUnsplit (q :: r :: ps') = q ++ '$' :: sUnsplit (r :: ps') from rfl]
      rw [countOcc_append_dollar pat q ('$' :: sUnsplit (r :: ps')) hpat hd rfl]
      rw [countOcc_cons_ne _ _ hpat (pat_head_ne_dollar hd)]
      rw [ih]
      simp

theorem ddAssemble_count (pat : List Char) (δ : Nat → Nat)
    (hpat : pat ≠ []) (hdollar : '$' ∉ pat)
    (hhead : pat.head? = some '<') (htail : '<' ∉ pat.drop 1)
    (htok : ∀ i y, countOcc pat (token i ++ y) = δ i + countOcc pat y) :
    ∀ (ctr : Nat) (pieces : List (List Char)),
      (∀ p ∈ pieces, countOcc pat p = 0) →
      countOcc pat (ddAssemble ctr pieces).1
        = (((ddAssemble ctr pieces).2).map (fun g => δ g.id)).sum := by
  intro ctr pieces
  induction ctr, pieces using ddAssemble.induct with
  | case1 ctr =>
    intro _
    simp [ddAssemble, countOcc_nil hpat]
  | case2 ctr p =>
    intro hp
    rw [show (ddAssemble ctr [p]).1 = p from rfl,
      show (ddAssemble ctr [p]).2 = [] from rfl]
    rw [hp p (by simp)]
    rfl
  | case3 ctr p q =>
    intro hp
    rw [show (ddAssemble ctr [p, q]).1 = p ++ '$' :: '$' :: q from rfl,
      show (ddAssemble ctr [p, q]).2 = [] from rfl]
    rw [countOcc_append_dollar pat p ('$' :: '$' :: q) hpat hdollar rfl]
    rw [countOcc_cons_ne _ _ hpat (pat_head_ne_dollar hdollar)]
    rw [countOcc_cons_ne _ _ hpat (pat_head_ne_dollar hdollar)]
    rw [hp p (by simp), hp q (by simp)]
    rfl
  | case4 ctr p q r ps ih =>
    intro hp
    have hsub : ∀ x ∈ r :: ps, countOcc pat x = 0 := fun x hx =>
      hp x (List.mem_cons_of_mem p (List.mem_cons_of_mem q hx))
    rw [show (ddAssemble ctr (p :: q :: r :: ps)).1
        = p ++ (token ctr ++ (ddAssemble (ctr + 1) (r :: ps)).1) from by
          rw [ddAssemble]; simp,
      show (ddAssemble ctr (p :: q :: r :: ps)).2
        = ⟨ctr, String.mk (jsTrim q), true⟩ :: (ddAssemble (ctr + 1) (r :: ps)).2 from by
          rw [ddAssemble]]
    rw [countOcc_append_before_token pat p hpat hhead htail ctr _]
    rw [htok ctr _]
    rw [hp p (by simp), ih hsub]
    simp

theorem sAssemble_count (pat : List Char) (δ : Nat → Nat)
    (hpat : pat ≠ []) (hdollar : '$' ∉ pat)
    (hhead : pat.head? = some '<') (htail : '<' ∉ pat.drop 1)
    (htok : ∀ i y, countOcc pat (token i ++ y) = δ i + countOcc pat y)
    (hpq : ∀ q : List Char, ¬ pfxTok <:+: jsTrim q → countOcc pat q = 0) :
    ∀ (ctr : Nat) (pieces : List (List Char)),
      (∀ seg ∈ (sAssemble ctr pieces).2, ¬ pfxTok <:+: seg.formula.data) →
      countOcc pat (sAssemble ctr pieces).1
        = (pieces.map (countOcc pat)).sum
          + (((sAssemble ctr pieces).2).map (fun g => δ g.id)).sum := by
  intro ctr pieces
  induction ctr, pieces using sAssemble.induct with
  | case1 ctr =>
    intro _
    simp [sAssemble, countOcc_nil hpat]
  | case2 ctr p =>
    intro _
    rw [show (sAssemble ctr [p]).1 = p from rfl,
      show (sAssemble ctr [p]).2 = [] from rfl]
    simp
  | case3 ctr p q =>
    intro _
    rw [show (sAssemble ctr [p, q]).1 = p ++ '$' :: q from rfl,
      show (sAssemble ctr [p, q]).2 = [] from rfl]
    rw [countOcc_append_dollar pat p ('$' :: q) hpat hdollar rfl]
    rw [countOcc_cons_ne _ _ hpat (pat_head_ne_dollar hdollar)]
    simp
  | case4 ctr p r ps ih =>
    intro hsw
    have hout : (sAssemble ctr (p :: [] :: r :: ps)).1
        = p ++ '$' :: (sAssemble ctr ([] :: r :: ps)).1 := by
      rw [sAssemble.eq_def]
      simp
    have hsegs : (sAssemble ctr (p :: [] :: r :: ps)).2
        = (sAssemble ctr ([] :: r :: ps)).2 := by
      rw [sAssemble.eq_def]
      simp
    rw [hout, hsegs]
    rw [hsegs] at hsw
    rw [countOcc_append_dollar pat p ('$' :: (sAssemble ctr ([] :: r :: ps)).1)
      hpat hdollar rfl]
    rw [countOcc_cons_ne _ _ hpat (pat_head_ne_dollar hdollar)]
    rw [ih hsw]
    simp [countOcc_nil hpat]
    omega
  | case5 ctr p q r ps hq ih =>
    intro hsw
    have hout : (sAssemble ctr (p :: q :: r :: ps)).1
        = p ++ (token ctr ++ (sAssemble (ctr + 1) (r :: ps)).1) := by
      rw [sAssemble.eq_def]
      simp [hq]
    have hsegs : (sAssemble ctr (p :: q :: r :: ps)).2
        = ⟨ctr, String.mk (jsTrim q), false⟩ :: (sAssemble (ctr + 1) (r :: ps)).2 := by
      rw [sAssemble.eq_def]
      simp [hq]
    rw [hout, hsegs]
    rw [hsegs] at hsw
    have hqclean : countOcc pat q = 0 := by
      apply hpq
      have := hsw ⟨ctr, String.mk (jsTrim q), false⟩ (List.mem_cons_self _ _)
      exact this
    have hsub : ∀ seg ∈ (sAssemble (ctr + 1) (r :: ps)).2,
        ¬ pfxTok <:+: seg.formula.data :=
      fun seg hseg => hsw seg (List.mem_cons_of_mem _ hseg)
    rw [countOcc_append_before_token pat p hpat hhead htail ctr _]
    rw [htok ctr _]
    rw [ih hsub]
    simp [hqclean]
    omega

theorem ddAssemble_ids : ∀ (ctr : Nat) (pieces : List (List Char)),
    ((ddAssemble ctr pieces).2).map MathSeg.id
      = List.range' ctr ((ddAssemble ctr pieces).2).length := by
  intro ctr pieces
  induction ctr, pieces using ddAssemble.induct with
  | case1 ctr => rfl
  | case2 ctr p => rfl
  | case3 ctr p q => rfl
  | case4 ctr p q r ps ih =>
    have hsegs : (ddAssemble ctr (p :: q :: r :: ps)).2
        = ⟨ctr, String.mk (jsTrim q), true⟩ :: (ddAssemble (ctr + 1) (r :: ps)).2 := by
      rw [ddAssemble]
    rw [hsegs]
    simp only [List.map_cons, List.length_cons]
    rw [ih, List.range'_succ]

theorem sAssemble_ids : ∀ (ctr : Nat) (pieces : List (List Char)),
    ((sAssemble ctr pieces).2).map MathSeg.id
      = List.range' ctr ((sAssemble ctr pieces).2).length := by
  intro ctr pieces
  induction ctr, pieces using sAssemble.induct with
  | case1 ctr => rfl
  | case2 ctr p => rfl
  | case3 ctr p q => rfl
  | case4 ctr p r ps ih =>
    have hsegs : (sAssemble ctr (p :: [] :: r :: ps)).2
        = (sAssemble ctr ([] :: r :: ps)).2 := by
      rw [sAssemble.eq_def]
      simp
    rw [hsegs]
    exact ih
  | case5 ctr p q r ps hq ih =>
    have hsegs : (sAssemble ctr (p :: q :: r :: ps)).2
        = ⟨ctr, String.mk (jsTrim q), false⟩ :: (sAssemble (ctr + 1) (r :: ps)).2 := by
      rw [sAssemble.eq_def]
      simp [hq]
    rw [hsegs]
    simp only [List.map_cons, List.length_cons]
    rw [ih, List.range'_succ]

theorem dropWhile_ws_of_clean {pat : List Char}
    (hws : ∀ c ∈ pat, isJsWs c = false) : pat.dropWhile isJsWs = pat := by
  cases pat with
  | nil => rfl
  | cons p pt =>
    rw [List.dropWhile_cons, if_neg]
    rw [hws p (List.mem_cons_self p pt)]
    simp

theorem infix_dropWhile_ws {pat l : List Char} (hne : pat ≠ [])
    (hws : ∀ c ∈ pat, isJsWs c = false) (h : pat <:+: l) :
    pat <:+: l.dropWhile isJsWs := by
  rcases h with ⟨u, v, rfl⟩
  rw [List.append_assoc, List.dropWhile_append]
  split
  · rw [List.dropWhile_append]
    rw [if_neg (by rw [dropWhile_ws_of_clean hws]; simpa using hne)]
    rw [dropWhile_ws_of_clean hws]
    exact ⟨[], v, by simp⟩
  · exact ⟨u.dropWhile isJsWs, v, by rw [List.append_assoc]⟩

theorem infix_jsTrim {pat l : List Char} (hne : pat ≠ [])
    (hws : ∀ c ∈ pat, isJsWs c = false) (h : pat <:+: l) : pat <:+: jsTrim l := by
  have h1 := infix_dropWhile_ws hne hws h
  have h2 : pat.reverse <:+: (l.dropWhile isJsWs).reverse := List.reverse_infix.mpr h1
  have hne' : pat.reverse ≠ [] := by simpa using hne
  have hws' : ∀ c ∈ pat.reverse, isJsWs c = false := fun c hc =>
    hws c (List.mem_reverse.mp hc)
  have h3 := infix_dropWhile_ws hne' hws' h2
  have h4 := List.reverse_infix.mpr h3
  rw [List.reverse_reverse] at h4
  exact h4

theorem swallowed_clean_tok (j : Nat) : ∀ q : List Char,
    ¬ pfxTok <:+: jsTrim q → countOcc (token j) q = 0 := by
  intro q hq
  rw [countOcc_eq_zero (token_ne_nil j)]
  intro hinf
  exact hq ((pfx_prefix_token j).isInfix.trans
    (infix_jsTrim (token_ne_nil j) (ws_not_mem_token j) hinf))

theorem swallowed_clean_pfx : ∀ q : List Char,
    ¬ pfxTok <:+: jsTrim q → countOcc pfxTok q = 0 := by
  intro q hq
  rw [countOcc_eq_zero (by decide : pfxTok ≠ [])]
  intro hinf
  exact hq (infix_jsTrim (by decide) (by decide) hinf)

theorem piece_clean_dd (pat : List Char) (hpat : pat ≠ []) (hpfx : pfxTok <+: pat)
    (l : List Char) (hclean : ¬ pfxTok <:+: l) :
    ∀ p ∈ ddSplit l, countOcc pat p = 0 := by
  intro p hp
  rw [countOcc_eq_zero hpat]
  intro hinf
  have h1 : p <:+: l := by
    rw [← ddUnsplit_ddSplit l]
    exact mem_infix_ddUnsplit _ p hp
  exact hclean (hpfx.isInfix.trans (hinf.trans h1))

theorem sum_map_ite_eq_count (j : Nat) : ∀ l : List Nat,
    (l.map (fun i => if j = i then 1 else 0)).sum = l.count j := by
  intro l
  induction l with
  | nil => rfl
  | cons i l' ih =>
    simp only [List.map_cons, List.sum_cons, ih]
    rcases eq_or_ne j i with h | h
    · subst h
      have h2 : (j :: l').count j = l'.count j + 1 := by
        rw [List.count_cons]; simp
      rw [if_pos (rfl : j = j), h2]
      omega
    · have h2 : (i :: l').count j = l'.count j := by
        rw [List.count_cons]; simp [h.symm]
      rw [if_neg h, h2]
      omega

theorem suffix_head_unique {l a : List Char} {c : Char} (hl : l.head? = some c)
    (hnotail : c ∉ l.drop 1) (hsuf : a <:+ l) (hh : a.head? = some c) : a = l := by
  rcases hsuf with ⟨t, ht⟩
  cases t with
  | nil => simpa using ht
  | cons t0 ts =>
    exfalso
    cases a with
    | nil => simp at hh
    | cons a0 a' =>
      simp only [List.head?_cons, Option.some.injEq] at hh
      have hdrop : l.drop 1 = ts ++ (a0 :: a') := by
        rw [← ht]
        simp
      exact hnotail (hdrop ▸
        List.mem_append.mpr (Or.inr (hh ▸ List.mem_cons_self a0 a')))

theorem countOcc_append_before_ltstart (pat x y : List Char) (hpat : pat ≠ [])
    (hhead : pat.head? = some '<') (htail : '<' ∉ pat.drop 1)
    (hy : y.head? = some '<') :
    countOcc pat (x ++ y) = countOcc pat x + countOcc pat y := by
  apply countOcc_append_nostraddle pat x y hpat
  intro a b hab ha hb hsuf hby
  have hbh := prefix_head_eq hby hb
  rw [hy] at hbh
  have hbsub : b ⊆ pat.drop 1 := by
    intro d hd
    have hba : b = pat.drop a.length := by
      rw [hab, List.drop_left]
    have halen : 1 ≤ a.length :=
      Nat.one_le_iff_ne_zero.mpr (fun h0 => ha (List.eq_nil_of_length_eq_zero h0))
    rw [hba, show a.length = 1 + (a.length - 1) from by omega, ← List.drop_drop] at hd
    exact List.drop_subset _ _ hd
  cases b with
  | nil => exact hb rfl
  | cons b0 b' =>
    simp only [List.head?_cons, Option.some.injEq] at hbh
    exact htail (hbsub (hbh ▸ List.mem_cons_self b0 b'))

theorem token_length_ge (i : Nat) : 4 ≤ (token i).length := by
  rw [token_eq_append]
  simp only [List.length_append]
  rw [show pfxTok.length = 14 from by decide]
  omega

theorem countOcc_markedModel (pat : List Char)
    (hlen : 4 ≤ pat.length)
    (hsnd : ∃ pt, pat = '<' :: '!' :: pt)
    (htail : '<' ∉ pat.drop 1) (x : String) :
    countOcc pat (markedModelParagraph x).data = countOcc pat x.data := by
  obtain ⟨pt, hpat⟩ := hsnd
  have hne : pat ≠ [] := by rw [hpat]; simp
  have hhead : pat.head? = some '<' := by rw [hpat]; rfl
  have hdata : (markedModelParagraph x).data
      = "<p>".data ++ (x.data ++ "</p>\n".data) := by
    simp [markedModelParagraph, String.data_append]
  rw [hdata]
  rw [countOcc_append_nostraddle pat "<p>".data _ hne ?ns1]
  case ns1 =>
    intro a b hab ha hb hsuf hby
    have hah : a.head? = some '<' := prefix_part_head hab ha hhead
    have haeq : a = "<p>".data :=
      suffix_head_unique (l := "<p>".data) rfl (by decide) hsuf hah
    rw [haeq] at hab
    rw [hpat] at hab
    rw [show ("<p>".data : List Char) = '<' :: 'p' :: ['>'] from rfl] at hab
    simp only [List.cons_append, List.cons.injEq] at hab
    exact absurd hab.2.1 (by decide)
  have h0 : countOcc pat "<p>".data = 0 := by
    rw [countOcc_eq_zero hne]
    intro hinf
    have := hinf.length_le
    rw [show ("<p>".data : List Char).length = 3 from rfl] at this
    omega
  rw [h0, Nat.zero_add]
  rw [countOcc_append_before_ltstart pat x.data "</p>\n".data hne hhead htail rfl]
  have h1 : countOcc pat "</p>\n".data = 0 := by
    rw [countOcc_eq_zero hne]
    intro hinf
    rcases infix_iff_exists_drop.mp hinf with ⟨n, hp⟩
    cases n with
    | zero =>
      rw [List.drop_zero] at hp
      rw [hpat] at hp
      rw [show ("</p>\n".data : List Char) = '<' :: '/' :: 'p' :: '>' :: ['\n'] from rfl] at hp
      have := (List.cons_prefix_cons.mp ((List.cons_prefix_cons.mp hp).2)).1
      exact absurd this (by decide)
    | succ n' =>
      cases pat with
      | nil => exact hne rfl
      | cons p0 p' =>
        have hp0 : p0 = '<' := by
          injection hpat
        rcases hp with ⟨rest, hrest⟩
        have hmem : '<' ∈ ("</p>\n".data : List Char).drop (n' + 1) := by
          rw [← hrest]
          exact hp0 ▸ List.mem_append.mpr (Or.inl (List.mem_cons_self p0 p'))
        have hsub : (("</p>\n".data : List Char)).drop (n' + 1)
            ⊆ (("</p>\n".data : List Char)).drop 1 := by
          intro d hd
          rw [show n' + 1 = 1 + n' from by omega, ← List.drop_drop] at hd
          exact List.drop_subset _ _ hd
        have : '<' ∉ (("</p>\n".data : List Char)).drop 1 := by decide
        exact this (hsub hmem)
  rw [h1, Nat.add_zero]

theorem sum_map_one (l : List MathSeg) : (l.map (fun _ => (1 : Nat))).sum = l.length := by
  induction l with
  | nil => rfl
  | cons a l ih =>
    simp only [List.map_cons, List.sum_cons, List.length_cons, ih]
    omega

theorem sum_map_ite_id (j : Nat) (segs : List MathSeg) :
    (segs.map (fun g => if j = g.id then 1 else 0)).sum
      = (segs.map MathSeg.id).count j := by
  rw [show (segs.map (fun g => if j = g.id then 1 else 0))
      = (segs.map MathSeg.id).map (fun i => if j = i then 1 else 0) from by
    rw [List.map_map]; rfl]
  exact sum_map_ite_eq_count j _

theorem mathExtract_counts (s : String)
    (hclean : ¬ pfxTok <:+: s.data)
    (hsw : ∀ seg ∈ (mathExtract s).2, ¬ pfxTok <:+: seg.formula.data) :
    (∀ j : Nat, countOcc (token j) (mathExtract s).1
        = (List.range' 0 (mathExtract s).2.length).count j) ∧
      countOcc pfxTok (mathExtract s).1 = (mathExtract s).2.length ∧
      (mathExtract s).2.map MathSeg.id = List.range' 0 (mathExtract s).2.length := by
  obtain ⟨D1, D2, hD⟩ : ∃ a b, ddAssemble 0 (ddSplit s.data) = (a, b) := ⟨_, _, rfl⟩
  have hme : mathExtract s
      = ((sAssemble D2.length (sSplit D1)).1, D2 ++ (sAssemble D2.length (sSplit D1)).2) := by
    simp only [mathExtract, hD]
  obtain ⟨E1, E2, hE⟩ : ∃ a b, sAssemble D2.length (sSplit D1) = (a, b) := ⟨_, _, rfl⟩
  rw [hE] at hme
  rw [hme] at hsw ⊢
  simp only at hsw ⊢
  -- segment id facts
  have hk : D2.map MathSeg.id = List.range' 0 D2.length := by
    have := ddAssemble_ids 0 (ddSplit s.data)
    rwa [hD] at this
  have hm : E2.map MathSeg.id = List.range' D2.length E2.length := by
    have := sAssemble_ids D2.length (sSplit D1)
    rwa [hE] at this
  have hrg : List.range' 0 D2.length ++ List.range' D2.length E2.length
      = List.range' 0 (E2.length + D2.length) := by
    have := List.range'_append 0 D2.length E2.length 1
    rwa [Nat.one_mul, Nat.zero_add] at this
  have hlen : (D2 ++ E2).length = E2.length + D2.length := by
    rw [List.length_append]; omega
  have hswE : ∀ seg ∈ E2, ¬ pfxTok <:+: seg.formula.data := fun seg hseg =>
    hsw seg (List.mem_append_right D2 hseg)
  -- per-token counts
  have htokcnt : ∀ j : Nat, countOcc (token j) E1
      = (List.range' 0 (D2 ++ E2).length).count j := by
    intro j
    have hEcnt := sAssemble_count (token j) (fun i => if j = i then 1 else 0)
      (token_ne_nil j) (dollar_not_mem_token j) (token_head j)
      (lt_not_mem_token_drop1 j) (countOcc_tok_token_append j)
      (swallowed_clean_tok j) D2.length (sSplit D1) (by rw [hE]; exact hswE)
    rw [hE] at hEcnt
    simp only at hEcnt
    have hinput : ((sSplit D1).map (countOcc (token j))).sum = countOcc (token j) D1 := by
      rw [← sUnsplit_sSplit D1,
        countOcc_sUnsplit (token j) (token_ne_nil j) (dollar_not_mem_token j) (sSplit D1),
        sUnsplit_sSplit D1]
    have hDcnt := ddAssemble_count (token j) (fun i => if j = i then 1 else 0)
      (token_ne_nil j) (dollar_not_mem_token j) (token_head j)
      (lt_not_mem_token_drop1 j) (countOcc_tok_token_append j) 0 (ddSplit s.data)
      (piece_clean_dd (token j) (token_ne_nil j) (pfx_prefix_token j) s.data hclean)
    rw [hD] at hDcnt
    simp only at hDcnt
    rw [hEcnt, hinput, hDcnt, sum_map_ite_id, sum_map_ite_id, hk, hm, hlen,
      ← hrg, List.count_append]
  have hpfxcnt : countOcc pfxTok E1 = (D2 ++ E2).length := by
    have hEcnt := sAssemble_count pfxTok (fun _ => 1)
      (by decide) (by decide) (by decide) (by decide)
      countOcc_pfx_token_append swallowed_clean_pfx
      D2.length (sSplit D1) (by rw [hE]; exact hswE)
    rw [hE] at hEcnt
    simp only at hEcnt
    have hinput : ((sSplit D1).map (countOcc pfxTok)).sum = countOcc pfxTok D1 := by
      rw [← sUnsplit_sSplit D1,
        countOcc_sUnsplit pfxTok (by decide) (by decide) (sSplit D1),
        sUnsplit_sSplit D1]
    have hDcnt := ddAssemble_count pfxTok (fun _ => 1)
      (by decide) (by decide) (by decide) (by decide)
      countOcc_pfx_token_append 0 (ddSplit s.data)
      (piece_clean_dd pfxTok (by decide) List.prefix_rfl s.data hclean)
    rw [hD] at hDcnt
    simp only at hDcnt
    rw [hEcnt, hinput, hDcnt, sum_map_one, sum_map_one, List.length_append]
  refine ⟨htokcnt, hpfxcnt, ?_⟩
  rw [List.map_append, hk, hm, hlen, hrg]

/-- C8 counterexample: for the input `"$a $$b$$ c$"` the display block is
extracted first and its placeholder token is then swallowed into the inline
formula, so the display entry (id 0, formula `b`) is referenced ZERO times in
the placeholder-bearing markdown output and its restored element never
appears in the htmlBody — the claimed bijection between placeholders and
mathSegments entries fails. -/
theorem c8_counterexample_nested_display :
    (formatMeaning markedModelParagraph (some "$a $$b$$ c$")).mathSegments
        = [⟨0, "b", true⟩, ⟨1, "a <!--knt-math-p0--> c", false⟩] ∧
      countOcc (token 0)
        (markedModelParagraph (String.mk (mathExtract "$a $$b$$ c$").1)).data = 0 ∧
      countOcc (spanHtml ⟨0, "b", true⟩).data
        (formatMeaning markedModelParagraph (some "$a $$b$$ c$")).htmlBody.data = 0 := by
  exact ⟨by decide, by decide, by decide⟩

/-- C8 amended: for every definition string that does not itself contain the
placeholder prefix `<!--knt-math-p` and whose extracted formulas do not
swallow a placeholder token (no `$$...$$` block inside an inline `$...$`
span), and for a markdown transform that preserves placeholder-token
occurrence counts (as `marked` does for HTML-comment-shaped tokens): each
mathSegments entry's placeholder token occurs exactly once in the
markdown-converted body, the total number of placeholder markers equals the
number of entries (a bijection between markers and entries), and the entry
ids are exactly 0,1,...,n-1 in order. -/
theorem c8_amended_bijection (s : String) (md : String → String)
    (hclean : ¬ pfxTok <:+: s.data)
    (hsw : ∀ seg ∈ (mathExtract s).2, ¬ pfxTok <:+: seg.formula.data)
    (hmdTok : ∀ i, countOcc (token i) (md (String.mk (mathExtract s).1)).data
        = countOcc (token i) (mathExtract s).1)
    (hmdPfx : countOcc pfxTok (md (String.mk (mathExtract s).1)).data
        = countOcc pfxTok (mathExtract s).1) :
    (∀ seg ∈ (mathExtract s).2,
        countOcc (token seg.id) (md (String.mk (mathExtract s).1)).data = 1) ∧
      countOcc pfxTok (md (String.mk (mathExtract s).1)).data
        = (mathExtract s).2.length ∧
      (mathExtract s).2.map MathSeg.id = List.range (mathExtract s).2.length := by
  obtain ⟨htok, hpfx, hids⟩ := mathExtract_counts s hclean hsw
  refine ⟨?_, by rw [hmdPfx, hpfx], by rw [hids, List.range_eq_range']⟩
  intro seg hseg
  rw [hmdTok seg.id, htok seg.id]
  have hmem : seg.id ∈ List.range' 0 (mathExtract s).2.length := by
    rw [← hids]
    exact List.mem_map_of_mem MathSeg.id hseg
  exact List.count_eq_one_of_mem (List.nodup_range' _ _ 1 (by omega)) hmem

theorem c8_amended_bijection_witness :
    (∀ seg ∈ (mathExtract "Force ($F$) equals mass times acceleration: $$F = ma$$").2,
        countOcc (token seg.id)
          (markedModelParagraph
            (String.mk (mathExtract "Force ($F$) equals mass times acceleration: $$F = ma$$").1)).data
          = 1) ∧
      countOcc pfxTok
        (markedModelParagraph
          (String.mk (mathExtract "Force ($F$) equals mass times acceleration: $$F = ma$$").1)).data
        = (mathExtract "Force ($F$) equals mass times acceleration: $$F = ma$$").2.length ∧
      (mathExtract "Force ($F$) equals mass times acceleration: $$F = ma$$").2.map MathSeg.id
        = List.range
            (mathExtract "Force ($F$) equals mass times acceleration: $$F = ma$$").2.length :=
  c8_amended_bijection "Force ($F$) equals mass times acceleration: $$F = ma$$"
    markedModelParagraph (by decide) (by decide)
    (fun i => countOcc_markedModel (token i) (token_length_ge i) (token_snd i)
      (lt_not_mem_token_drop1 i) _)
    (countOcc_markedModel pfxTok (by decide) ⟨"--knt-math-p".data, by decide⟩
      (by decide) _)

/-- C2 counterexample: for the input
`"Force ($F$) equals mass times acceleration: $$F = ma$$"` the `replacements`
sequence produced by `formatMeaning` does NOT have `{formula "F", inline}`
first: display extraction runs before inline extraction and the array is
indexed by creation order, so the first entry is `{formula "F = ma",
display}` and the second `{formula "F", inline}`. -/
theorem c2_counterexample_segment_order :
    ((formatMeaning markedModelParagraph
        (some "Force ($F$) equals mass times acceleration: $$F = ma$$")).mathSegments.map
          (fun g => (g.formula, g.isDisplay))
        ≠ [("F", false), ("F = ma", true)]) ∧
      ((formatMeaning markedModelParagraph
        (some "Force ($F$) equals mass times acceleration: $$F = ma$$")).mathSegments.map
          (fun g => (g.formula, g.isDisplay))
        = [("F = ma", true), ("F", false)]) := by
  exact ⟨by decide, by decide⟩

/-- C2 amended: for that input the render plan has exactly two math segments
— `{formula "F = ma", displayMode true}` first and `{formula "F",
displayMode false}` second, in extraction order — and the htmlBody contains
exactly two distinct restored placeholders, the inline one (for `F`)
appearing before the display one (for `F = ma`) in text order. -/
theorem c2_amended_render_roundtrip :
    formatMeaning markedModelParagraph
        (some "Force ($F$) equals mass times acceleration: $$F = ma$$")
      = ⟨"<p>Force (<span data-math-placeholder=\"F\" data-math-mode=\"inline\"></span>) equals mass times acceleration: <span data-math-placeholder=\"F = ma\" data-math-mode=\"display\"></span></p>\n",
         [⟨0, "F = ma", true⟩, ⟨1, "F", false⟩]⟩ ∧
      countOcc (spanHtml ⟨0, "F = ma", true⟩).data
        (formatMeaning markedModelParagraph
          (some "Force ($F$) equals mass times acceleration: $$F = ma$$")).htmlBody.data
        = 1 ∧
      countOcc (spanHtml ⟨1, "F", false⟩).data
        (formatMeaning markedModelParagraph
          (some "Force ($F$) equals mass times acceleration: $$F = ma$$")).htmlBody.data
        = 1 ∧
      spanHtml ⟨0, "F = ma", true⟩ ≠ spanHtml ⟨1, "F", false⟩ := by
  exact ⟨by decide, by decide, by decide, by decide⟩

/-- C5: a search query containing `%`, `_` or the escape character `\` is
treated as a literal substring: the `LIKE` filter built from `escapeLike`
accepts `w` exactly when `w` contains `q` literally (up to ASCII case), for
every query; in particular searching `50%` does not match the term `500`
(which an unescaped `%` would match) but does match a term literally
containing `50%`. -/
theorem c5_escaped_like_is_literal :
    (∀ q w : String, likeFilter q w = true ↔ ciSubstr q w) ∧
      fetchWords ordinalCompare [some "500"] "50%" = [] ∧
      fetchWords ordinalCompare [some "a50%b"] "50%" = ["a50%b"] :=
  ⟨fun q w => likeFilter_iff q w, by decide, by decide⟩
